import Mathlib

/-! A verification development for the `tracer` path tracer (`src/main.cpp`).

The program computes with `float`.  The development has two layers.

The integrator (`scene` and what it calls) and the statements about the
branching of `sphereIntersect` are embedded over an arbitrary linearly ordered
field `F` with exact arithmetic; the functions taken from `math.h` (`sqrt`,
`cos`, `sin`, `pow`) are a parameter `M : Libm F`.  The statements of this
layer are about the values the program itself computes (discriminant, roots,
measured distances) or are bounds that rounding keeps.

Where a statement depends on how the machine rounds, the function is embedded
a second time with the arithmetic of the machine as a parameter `fp : Fpu F`,
which rounds after every operation as the program does.  The general theorems
of this layer hold for every arithmetic that is `Fpu.Sound` (monotone
rounding that keeps the representable numbers); `ieee` is the executable model
of IEEE 754 `float` and `double` on the rationals, and `ieee_sound` shows that
it is sound.  The model has no upper bound on the exponent, so overflow,
infinities and NaN are outside it.

The C library generator `rand()` is a parameter as well: a `Rng` holds the
sequence of values that successive calls return and the number of calls made
so far, which makes the order and the number of draws observable.
-/

namespace Tracer

/-! Definitions -/

/-- The functions of the C math library used by the program. -/
structure Libm (F : Type) where
  sqrt : F → F
  cos : F → F
  sin : F → F
  pow : F → F → F

/-- The three-component vector `struct vec3`. -/
structure vec3 (F : Type) where
  x : F
  y : F
  z : F

section Defs

variable {F : Type} [LinearOrderedField F]

/-- The macro `PI`. -/
def PI : F := 314159 / 100000

/-- The macro `N_BOUNCES`. -/
def N_BOUNCES : Nat := 8

/-- The macro `EXPOSURE`. -/
def EXPOSURE : F := 1 / 2

/-- The macro `MIN_RAY_DIST`. -/
def MIN_RAY_DIST : F := 1 / 1000

/-- The macro `MAX_RAY_DIST`. -/
def MAX_RAY_DIST : F := 10000

/-- The macro `ENABLE_RUSSIAN_ROULETTE`. -/
def ENABLE_RUSSIAN_ROULETTE : Bool := false

namespace vec3

/-- The constructor `vec3()`. -/
def zero : vec3 F := ⟨0, 0, 0⟩

/-- The constructor `vec3(float _x)`. -/
def splat (a : F) : vec3 F := ⟨a, a, a⟩

/-- The member `operator*(float b)`. -/
def scale (a : vec3 F) (b : F) : vec3 F := ⟨a.x * b, a.y * b, a.z * b⟩

/-- The member `operator/(float b)`. -/
def divs (a : vec3 F) (b : F) : vec3 F := ⟨a.x / b, a.y / b, a.z / b⟩

/-- The member `operator+(const vec3 &b)`. -/
def add (a b : vec3 F) : vec3 F := ⟨a.x + b.x, a.y + b.y, a.z + b.z⟩

/-- The member `operator-(const vec3 &b)`. -/
def sub (a b : vec3 F) : vec3 F := ⟨a.x - b.x, a.y - b.y, a.z - b.z⟩

/-- The member `operator*(const vec3 &b)`. -/
def mul (a b : vec3 F) : vec3 F := ⟨a.x * b.x, a.y * b.y, a.z * b.z⟩

/-- The member `operator/(const vec3 &b)`. -/
def div (a b : vec3 F) : vec3 F := ⟨a.x / b.x, a.y / b.y, a.z / b.z⟩

instance : Add (vec3 F) := ⟨add⟩

instance : Sub (vec3 F) := ⟨sub⟩

instance : Mul (vec3 F) := ⟨mul⟩

instance : Div (vec3 F) := ⟨div⟩

instance : HMul (vec3 F) F (vec3 F) := ⟨scale⟩

instance : HDiv (vec3 F) F (vec3 F) := ⟨divs⟩

end vec3

/-- The scalar `clamp(float x)`. -/
def clamp (x : F) : F := if x < 0 then 0 else if x > 1 then 1 else x

/-- The function `dot`. -/
def dot (a b : vec3 F) : F := a.x * b.x + a.y * b.y + a.z * b.z

/-- The function `length`. -/
def length (M : Libm F) (a : vec3 F) : F := M.sqrt (a.x * a.x + a.y * a.y + a.z * a.z)

/-- The function `normalize`. -/
def normalize (M : Libm F) (a : vec3 F) : vec3 F := a / length M a

/-- The function `reflect`. -/
def reflect (a b : vec3 F) : vec3 F := a - b * (2 : F) * dot b a

/-- The function `mix(const vec3 &a, const vec3 &b, float c)`. -/
def mix (a b : vec3 F) (c : F) : vec3 F := a * (1 - c) + b * c

/-- The record `struct MaterialInfo`. -/
structure MaterialInfo (F : Type) where
  diffuse : vec3 F
  emissive : vec3 F
  specular : vec3 F
  percentSpec : F
  roughness : F

/-- The record `struct Sphere`. -/
structure Sphere (F : Type) where
  pos : vec3 F
  radius : F
  mat : MaterialInfo F

/-- The record `struct HitInfo`. -/
structure HitInfo (F : Type) where
  didHit : Bool
  normal : vec3 F
  hitPoint : vec3 F
  mat : MaterialInfo F

/-- The function `sphereIntersect`.  The local variables `root` and `didHit`
are assigned inside the nested `if`; the pair bound below holds their values
after it. -/
def sphereIntersect (M : Libm F) (rayOrigin rayDir : vec3 F) (sphere : Sphere F) : HitInfo F :=
  let oc := rayOrigin - sphere.pos
  let a := dot rayDir rayDir
  let half_b := dot oc rayDir
  let c := dot oc oc - sphere.radius * sphere.radius
  let discriminant := half_b * half_b - a * c
  let didHit : Bool := if discriminant > 0 then true else false
  let sqrtd := M.sqrt discriminant
  let root := (-half_b - sqrtd) / a
  let rd : F × Bool :=
    if root < MIN_RAY_DIST ∨ root > MAX_RAY_DIST then
      let root := (-half_b + sqrtd) / a
      if root < MIN_RAY_DIST ∨ root > MAX_RAY_DIST then (root, false) else (root, didHit)
    else (root, didHit)
  let hitPoint := rayOrigin + rayDir * rd.1
  let normal := (hitPoint - sphere.pos) / sphere.radius
  ⟨rd.2, normal, hitPoint, sphere.mat⟩

/-- The generator behind `rand()`: `draws k` is the value returned by the call
number `k`, `pos` the number of calls made so far, `RAND_MAX` the constant of
`stdlib.h`. -/
structure Rng where
  RAND_MAX : Nat
  draws : Nat → Nat
  pos : Nat

/-- The function `randFloat`: one call of `rand()`, divided by `RAND_MAX`. -/
def randFloat (g : Rng) : F × Rng :=
  ((g.draws g.pos : F) / (g.RAND_MAX : F), { g with pos := g.pos + 1 })

/-- The function `randUnitVector`: two draws, the first for `z`, the second
for the azimuth. -/
def randUnitVector (M : Libm F) (g : Rng) : vec3 F × Rng :=
  let d1 := (randFloat g : F × Rng)
  let z := d1.1 * 2 - 1
  let d2 := (randFloat d1.2 : F × Rng)
  let a := d2.1 * 2 * PI
  let r := M.sqrt (1 - z * z)
  let x := r * M.cos a
  let y := r * M.sin a
  (⟨x, y, z⟩, d2.2)

/-- The local `metalYellow` of `scene`. -/
def metalYellow : MaterialInfo F :=
  ⟨⟨9 / 10, 9 / 10, 1 / 2⟩, vec3.splat 0, vec3.splat (9 / 10), 1 / 10, 2 / 10⟩

/-- The local `metalMagenta` of `scene`. -/
def metalMagenta : MaterialInfo F :=
  { (metalYellow : MaterialInfo F) with
    diffuse := ⟨9 / 10, 1 / 2, 9 / 10⟩, percentSpec := 3 / 10, roughness := 2 / 10 }

/-- The local `metalCyan` of `scene`. -/
def metalCyan : MaterialInfo F :=
  { (metalYellow : MaterialInfo F) with diffuse := ⟨1 / 2, 9 / 10, 9 / 10⟩ }

/-- The local `matteWhite` of `scene`. -/
def matteWhite : MaterialInfo F :=
  ⟨vec3.splat (9 / 10), vec3.splat 0, vec3.splat 0, 0, 0⟩

/-- The local `matteRed` of `scene`. -/
def matteRed : MaterialInfo F :=
  { (matteWhite : MaterialInfo F) with diffuse := ⟨1, 2 / 10, 2 / 10⟩ }

/-- The local `matteGreen` of `scene`. -/
def matteGreen : MaterialInfo F :=
  { (matteWhite : MaterialInfo F) with diffuse := ⟨2 / 10, 1, 2 / 10⟩ }

/-- The local `lightSource` of `scene`. -/
def lightSource : MaterialInfo F :=
  ⟨vec3.splat 0, (⟨1, 9 / 10, 7 / 10⟩ : vec3 F) * (1 : F), vec3.splat 0, 0, 0⟩

/-- The first `nSpheres = 10` entries of the array `spheres` of `scene`, in
array order. -/
def spheres : List (Sphere F) :=
  [ ⟨⟨0, 18, 24⟩, 10, lightSource⟩,
    ⟨⟨0, 16, 6⟩, 10, lightSource⟩,
    ⟨⟨-108, 0, 30⟩, 100, matteRed⟩,
    ⟨⟨108, 0, 30⟩, 100, matteGreen⟩,
    ⟨⟨0, 0, 136⟩, 100, matteWhite⟩,
    ⟨⟨0, -103, 30⟩, 100, matteWhite⟩,
    ⟨⟨0, 125, 30⟩, 100, lightSource⟩,
    ⟨⟨-6, -16 / 10, 24⟩, 2, metalCyan⟩,
    ⟨⟨0, -16 / 10, 20⟩, 2, metalMagenta⟩,
    ⟨⟨6, -16 / 10, 24⟩, 2, metalYellow⟩ ]

/-- The local `skyboxColor` of `scene`. -/
def skyboxColor : vec3 F := ⟨1 / 2, 8 / 10, 9 / 10⟩

/-- The two locals `closestHit` and `hitInfo` of the bounce loop of `scene`. -/
structure Closest (F : Type) where
  closestHit : F
  hitInfo : HitInfo F

/-- The value of a default-constructed `HitInfo hitInfo;`: its vectors are
zeroed by `vec3()`, the other fields are indeterminate in C++ (taken as
`false` and `0` here) and are not read before they are assigned. -/
def HitInfo.init : HitInfo F :=
  ⟨false, vec3.zero, vec3.zero, ⟨vec3.zero, vec3.zero, vec3.zero, 0, 0⟩⟩

/-- The body of the inner loop `for (int i=0; i<nSpheres; i++)` of `scene`. -/
def closestStep (M : Libm F) (rayOrigin rayDir : vec3 F) (acc : Closest F) (s : Sphere F) :
    Closest F :=
  let h := sphereIntersect M rayOrigin rayDir s
  let rayDist := length M (rayOrigin - h.hitPoint)
  if h.didHit = true ∧ rayDist < acc.closestHit ∧ rayDist > MIN_RAY_DIST then
    ⟨rayDist, h⟩
  else acc

/-- The inner loop of `scene` over the spheres, started with
`closestHit = MAX_RAY_DIST`. -/
def findClosest (M : Libm F) (rayOrigin rayDir : vec3 F) (ss : List (Sphere F)) : Closest F :=
  ss.foldl (closestStep M rayOrigin rayDir) ⟨MAX_RAY_DIST, HitInfo.init⟩

/-- The locals of `scene` that live across bounces, with the generator. -/
structure PathState (F : Type) where
  rayOrigin : vec3 F
  rayDir : vec3 F
  col : vec3 F
  throughput : vec3 F
  rng : Rng

/-- What one pass through the body of the bounce loop ends in: the function
returns `col` (the sky `return`, or the Russian-roulette `break`, after which
`col` is returned), or the loop goes on with a new state. -/
inductive Bounce (F : Type) where
  | returned (col : vec3 F) (rng : Rng) : Bounce F
  | next (st : PathState F) : Bounce F

/-- The body of the loop `for (int nBounce=0; nBounce <= N_BOUNCES; nBounce++)`
of `scene`, over an arbitrary sphere list and sky colour; `rr` is the macro
`ENABLE_RUSSIAN_ROULETTE`. -/
def bounce (M : Libm F) (rr : Bool) (ss : List (Sphere F)) (sky : vec3 F)
    (st : PathState F) : Bounce F :=
  let cl := findClosest M st.rayOrigin st.rayDir ss
  if cl.closestHit = MAX_RAY_DIST then
    Bounce.returned (st.col + sky * st.throughput) st.rng
  else
    let hitInfo := cl.hitInfo
    let rayOrigin := hitInfo.hitPoint
    let d1 := (randFloat st.rng : F × Rng)
    let isSpecRay : Bool := if d1.1 < hitInfo.mat.percentSpec then true else false
    let rv := randUnitVector M d1.2
    let diffuseRayDir := normalize M (hitInfo.normal + rv.1)
    let specDirMix := hitInfo.mat.roughness * hitInfo.mat.roughness
    let specRayDir :=
      normalize M (mix (reflect st.rayDir hitInfo.normal) diffuseRayDir specDirMix)
    let rayDir := if isSpecRay then specRayDir else diffuseRayDir
    let col := st.col + hitInfo.mat.emissive * st.throughput
    let throughput :=
      st.throughput * (if isSpecRay then hitInfo.mat.specular else hitInfo.mat.diffuse)
    if rr then
      let p := max throughput.x (max throughput.y throughput.z)
      let d3 := (randFloat rv.2 : F × Rng)
      if d3.1 > p then Bounce.returned col d3.2
      else Bounce.next ⟨rayOrigin, rayDir, col, throughput * (1 / p), d3.2⟩
    else Bounce.next ⟨rayOrigin, rayDir, col, throughput, rv.2⟩

/-- The bounce loop run for `n` more passes; when the passes are used up the
function returns `col`. -/
def traceLoop (M : Libm F) (rr : Bool) (ss : List (Sphere F)) (sky : vec3 F) :
    Nat → PathState F → vec3 F × Rng
  | 0, st => (st.col, st.rng)
  | n + 1, st =>
    match bounce M rr ss sky st with
    | Bounce.returned col g => (col, g)
    | Bounce.next st1 => traceLoop M rr ss sky n st1

/-- The path state after `n` completed passes of the bounce loop, `none` when
the function has returned before. -/
def stateAfter (M : Libm F) (rr : Bool) (ss : List (Sphere F)) (sky : vec3 F) :
    Nat → PathState F → Option (PathState F)
  | 0, st => some st
  | n + 1, st =>
    match bounce M rr ss sky st with
    | Bounce.returned _ _ => none
    | Bounce.next st1 => stateAfter M rr ss sky n st1

/-- The state in which `scene` enters its bounce loop: `col = vec3(0.0)`,
`throughput = vec3(1.0)`. -/
def initState (rayOrigin rayDir : vec3 F) (g : Rng) : PathState F :=
  ⟨rayOrigin, rayDir, vec3.splat 0, vec3.splat 1, g⟩

/-- The integrator of `scene` with its constants as parameters: the
Russian-roulette switch, the bounce cap, the spheres and the sky colour.  The
loop runs for `nBounce = 0 .. nBounces`, that is `nBounces + 1` passes. -/
def trace (M : Libm F) (rr : Bool) (nBounces : Nat) (ss : List (Sphere F)) (sky : vec3 F)
    (rayOrigin rayDir : vec3 F) (g : Rng) : vec3 F × Rng :=
  traceLoop M rr ss sky (nBounces + 1) (initState rayOrigin rayDir g)

/-- The function `scene`, which returns the radiance and leaves the generator
in the state given as second component. -/
def scene (M : Libm F) (rayOrigin rayDir : vec3 F) (g : Rng) : vec3 F × Rng :=
  trace M ENABLE_RUSSIAN_ROULETTE N_BOUNCES spheres skyboxColor rayOrigin rayDir g

/-- The overload `clamp(const vec3 &x)`. -/
def vec3.clamp (x : vec3 F) : vec3 F :=
  ⟨Tracer.clamp x.x, Tracer.clamp x.y, Tracer.clamp x.z⟩

/-- The conversion `int(y)` of C++: truncation towards zero. -/
def truncInt [FloorRing F] (y : F) : Int := if 0 ≤ y then Int.floor y else Int.ceil y

/-! The machine arithmetic

The definitions above compute in the field `F` itself.  The definitions that
follow take the arithmetic of the machine as a parameter `fp : Fpu F` and
round after every operation, as the program does: an operation on two `float`
operands is rounded by `fp.f32`, an operation with a `double` operand by
`fp.f64`, and storing a `double` in a `float` by `fp.f32`. -/

/-- The arithmetic of the machine: `f32 x` is the `float` to which the exact
value `x` is rounded, `f64 x` the `double`, and `sqrt` is the square root on
`float`. -/
structure Fpu (F : Type) where
  f32 : F → F
  f64 : F → F
  sqrt : F → F

/-- Arithmetic without rounding. -/
def Fpu.exact (sqrt : F → F) : Fpu F := ⟨id, id, sqrt⟩

/-- The member `operator*(float b)` on `float` components. -/
def Fpu.scale (fp : Fpu F) (a : vec3 F) (b : F) : vec3 F :=
  ⟨fp.f32 (a.x * b), fp.f32 (a.y * b), fp.f32 (a.z * b)⟩

/-- The member `operator/(float b)` on `float` components. -/
def Fpu.divs (fp : Fpu F) (a : vec3 F) (b : F) : vec3 F :=
  ⟨fp.f32 (a.x / b), fp.f32 (a.y / b), fp.f32 (a.z / b)⟩

/-- The member `operator+(const vec3 &b)` on `float` components. -/
def Fpu.add (fp : Fpu F) (a b : vec3 F) : vec3 F :=
  ⟨fp.f32 (a.x + b.x), fp.f32 (a.y + b.y), fp.f32 (a.z + b.z)⟩

/-- The member `operator-(const vec3 &b)` on `float` components. -/
def Fpu.sub (fp : Fpu F) (a b : vec3 F) : vec3 F :=
  ⟨fp.f32 (a.x - b.x), fp.f32 (a.y - b.y), fp.f32 (a.z - b.z)⟩

/-- The member `operator*(const vec3 &b)` on `float` components. -/
def Fpu.mul (fp : Fpu F) (a b : vec3 F) : vec3 F :=
  ⟨fp.f32 (a.x * b.x), fp.f32 (a.y * b.y), fp.f32 (a.z * b.z)⟩

/-- The member `operator/(const vec3 &b)` on `float` components. -/
def Fpu.div (fp : Fpu F) (a b : vec3 F) : vec3 F :=
  ⟨fp.f32 (a.x / b.x), fp.f32 (a.y / b.y), fp.f32 (a.z / b.z)⟩

/-- The function `dot` on `float` components: three products and two sums,
from left to right, each rounded. -/
def Fpu.dot (fp : Fpu F) (a b : vec3 F) : F :=
  fp.f32 (fp.f32 (fp.f32 (a.x * b.x) + fp.f32 (a.y * b.y)) + fp.f32 (a.z * b.z))

/-- The macro `MIN_RAY_DIST`, a `double` literal. -/
def Fpu.MIN_RAY_DIST (fp : Fpu F) : F := fp.f64 (1 / 1000)

/-- The function `sphereIntersect` in machine arithmetic.  The comparisons of
the `float` `root` with the `double` macros are exact. -/
def Fpu.sphereIntersect (fp : Fpu F) (rayOrigin rayDir : vec3 F) (sphere : Sphere F) :
    HitInfo F :=
  let oc := fp.sub rayOrigin sphere.pos
  let a := fp.dot rayDir rayDir
  let half_b := fp.dot oc rayDir
  let c := fp.f32 (fp.dot oc oc - fp.f32 (sphere.radius * sphere.radius))
  let discriminant := fp.f32 (fp.f32 (half_b * half_b) - fp.f32 (a * c))
  let didHit : Bool := if discriminant > 0 then true else false
  let sqrtd := fp.sqrt discriminant
  let root := fp.f32 (fp.f32 (-half_b - sqrtd) / a)
  let rd : F × Bool :=
    if root < fp.MIN_RAY_DIST ∨ root > MAX_RAY_DIST then
      let root := fp.f32 (fp.f32 (-half_b + sqrtd) / a)
      if root < fp.MIN_RAY_DIST ∨ root > MAX_RAY_DIST then (root, false) else (root, didHit)
    else (root, didHit)
  let hitPoint := fp.add rayOrigin (fp.scale rayDir rd.1)
  let normal := fp.divs (fp.sub hitPoint sphere.pos) sphere.radius
  ⟨rd.2, normal, hitPoint, sphere.mat⟩

/-- The function `randFloat` in machine arithmetic: `rand()` and `RAND_MAX`
are converted to `float`, then divided. -/
def Fpu.randFloat (fp : Fpu F) (g : Rng) : F × Rng :=
  (fp.f32 (fp.f32 (g.draws g.pos : F) / fp.f32 (g.RAND_MAX : F)), { g with pos := g.pos + 1 })

/-- The function `toCol`: the product is a `float`, the sum with the `double`
literal `0.5` a `double`. -/
def toCol [FloorRing F] (fp : Fpu F) (x : F) : Int :=
  truncInt (fp.f64 (fp.f32 (clamp x * 255) + 1 / 2))

/-- The overload `pow(const vec3 &a, const vec3 &b)`; the constructor stores
each result in a `float`. -/
def vec3.pow (fp : Fpu F) (M : Libm F) (a b : vec3 F) : vec3 F :=
  ⟨fp.f32 (M.pow a.x b.x), fp.f32 (M.pow a.y b.y), fp.f32 (M.pow a.z b.z)⟩

/-- One component of `mix(const vec3 &a, const vec3 &b, const vec3 &c)`,
`a.x * (1.0-c.x) + b.x*c.x`: the literal `1.0` makes the difference, the first
product and the sum `double`, the second product is a `float`, and the
constructor stores the sum in a `float`. -/
def Fpu.mix1 (fp : Fpu F) (a b c : F) : F :=
  fp.f32 (fp.f64 (fp.f64 (a * fp.f64 (1 - c)) + fp.f32 (b * c)))

/-- The overload `mix(const vec3 &a, const vec3 &b, const vec3 &c)`. -/
def vec3.mix (fp : Fpu F) (a b c : vec3 F) : vec3 F :=
  ⟨fp.mix1 a.x b.x c.x, fp.mix1 a.y b.y c.y, fp.mix1 a.z b.z c.z⟩

/-- The function `ACESFilm`. -/
def ACESFilm (fp : Fpu F) (x : vec3 F) : vec3 F :=
  let a : F := fp.f32 (251 / 100)
  let b : F := fp.f32 (3 / 100)
  let c : F := fp.f32 (243 / 100)
  let d : F := fp.f32 (59 / 100)
  let e : F := fp.f32 (14 / 100)
  vec3.clamp (fp.div (fp.mul x (fp.add (fp.scale x a) (vec3.splat b)))
    (fp.add (fp.mul x (fp.add (fp.scale x c) (vec3.splat d))) (vec3.splat e)))

/-! A model of the IEEE 754 formats on the rationals

Round to nearest, ties to even, to `p` significant bits with least exponent
`emin` (gradual underflow).  The exponent range is not bounded above, so
overflow, infinities and NaN are outside the model. -/

/-- The number of binary digits of `n`, for `n ≤ fuel`. -/
def nbits : Nat → Nat → Nat
  | 0, _ => 0
  | fuel + 1, n => if n = 0 then 0 else nbits fuel (n / 2) + 1

/-- The exponent `e` with `2 ^ e ≤ |q| < 2 ^ (e + 1)`, for `q ≠ 0`. -/
def ilog2 (q : ℚ) : Int :=
  let e0 : Int := (nbits q.num.natAbs q.num.natAbs : Int) - (nbits q.den q.den : Int)
  if (2 : ℚ) ^ e0 ≤ |q| then e0 else e0 - 1

/-- The integer nearest to `q`, the even one of the two when `q` is half way. -/
def roundNearestEven (q : ℚ) : Int :=
  let f := Int.floor q
  let d := q - f
  if d < 1 / 2 then f else if 1 / 2 < d then f + 1 else if f % 2 = 0 then f else f + 1

/-- Rounding to `p` significant bits with least exponent `emin`: the nearest
multiple of the unit in the last place of the binade of `q`. -/
def roundTo (p : Nat) (emin : Int) (q : ℚ) : ℚ :=
  if q = 0 then 0 else
    let e := max (ilog2 q) emin
    let u := (2 : ℚ) ^ (e - ((p : Int) - 1))
    (roundNearestEven (q / u) : ℚ) * u

/-- Rounding to `float`. -/
def binary32 (q : ℚ) : ℚ := roundTo 24 (-126) q

/-- Rounding to `double`. -/
def binary64 (q : ℚ) : ℚ := roundTo 53 (-1022) q

/-- Newton iteration for the integer square root, from a start above it. -/
def isqrtLoop : Nat → Nat → Nat → Nat
  | 0, _, x => x
  | fuel + 1, n, x =>
    let y := (x + n / x) / 2
    if y < x then isqrtLoop fuel n y else x

/-- The integer square root `⌊√n⌋`. -/
def isqrt (n : Nat) : Nat :=
  if n = 0 then 0 else isqrtLoop (2 * nbits n n + 2) n (2 ^ ((nbits n n + 1) / 2))

/-- The square root rounded to `p` significant bits.  The operand is scaled by
a power of four that gives the integer part `i` of the root at least `p + 2`
bits; when the root is not `i` itself it lies strictly between `i` and `i + 1`,
where it rounds as `i + 1/2` does.  For a negative operand the machine returns
NaN, which the model does not have: the value `0` stands there, and no
theorem uses it. -/
def sqrtTo (p : Nat) (emin : Int) (q : ℚ) : ℚ :=
  if q ≤ 0 then 0 else
    let k : Int := (p : Int) + 2 - ilog2 q / 2
    let s := q * (2 : ℚ) ^ (2 * k)
    let i := isqrt (Int.floor s).toNat
    let y : ℚ := if (i : ℚ) * i = s then i else i + 1 / 2
    roundTo p emin (y * (2 : ℚ) ^ (-k))

/-- The arithmetic of IEEE 754 `float` and `double` with the correctly rounded
square root. -/
def ieee : Fpu ℚ := ⟨binary32, binary64, sqrtTo 24 (-126)⟩

/-! Vocabulary of the statements -/

/-- What the theorems assume of the library `sqrt`: on a non-negative argument
it returns the non-negative number whose square is the argument. -/
structure SqrtSpec (M : Libm F) : Prop where
  nonneg : ∀ x : F, 0 ≤ x → 0 ≤ M.sqrt x
  sq : ∀ x : F, 0 ≤ x → M.sqrt x * M.sqrt x = x

/-- The coefficient `half_b = (O - C)·D` of the ray-sphere quadratic. -/
def halfB (O D : vec3 F) (S : Sphere F) : F := dot (O - S.pos) D

/-- The discriminant `half_b² - a·c` of the ray-sphere quadratic, with
`a = D·D` and `c = (O - C)·(O - C) - r²`. -/
def discr (O D : vec3 F) (S : Sphere F) : F :=
  halfB O D S * halfB O D S - dot D D * (dot (O - S.pos) (O - S.pos) - S.radius * S.radius)

/-- The smaller root `(-half_b - √disc) / a`. -/
def nearRoot (M : Libm F) (O D : vec3 F) (S : Sphere F) : F :=
  (-halfB O D S - M.sqrt (discr O D S)) / dot D D

/-- The larger root `(-half_b + √disc) / a`. -/
def farRoot (M : Libm F) (O D : vec3 F) (S : Sphere F) : F :=
  (-halfB O D S + M.sqrt (discr O D S)) / dot D D

/-- Membership in `[MIN_RAY_DIST, MAX_RAY_DIST]`. -/
def inRange (t : F) : Prop := MIN_RAY_DIST ≤ t ∧ t ≤ MAX_RAY_DIST

/-- The point `O + t·D` lies on the surface of the sphere:
`|O + tD - C|² = r²`. -/
def onSphere (O D : vec3 F) (S : Sphere F) (t : F) : Prop :=
  dot (O + D * t - S.pos) (O + D * t - S.pos) = S.radius * S.radius

/-- The distance `length(rayOrigin - h.hitPoint)` that the integrator measures
for a sphere. -/
def hitDist (M : Libm F) (O D : vec3 F) (s : Sphere F) : F :=
  length M (O - (sphereIntersect M O D s).hitPoint)

/-- A sphere is a candidate at a bounce: `sphereIntersect` reports a hit and
the measured distance is strictly between `MIN_RAY_DIST` and `MAX_RAY_DIST`. -/
def qualifies (M : Libm F) (O D : vec3 F) (s : Sphere F) : Prop :=
  (sphereIntersect M O D s).didHit = true ∧
    MIN_RAY_DIST < hitDist M O D s ∧ hitDist M O D s < MAX_RAY_DIST

/-- The coefficient `half_b` as the machine computes it. -/
def Fpu.halfB (fp : Fpu F) (O D : vec3 F) (S : Sphere F) : F := fp.dot (fp.sub O S.pos) D

/-- The discriminant as the machine computes it. -/
def Fpu.discr (fp : Fpu F) (O D : vec3 F) (S : Sphere F) : F :=
  fp.f32 (fp.f32 (fp.halfB O D S * fp.halfB O D S) -
    fp.f32 (fp.dot D D *
      fp.f32 (fp.dot (fp.sub O S.pos) (fp.sub O S.pos) - fp.f32 (S.radius * S.radius))))

/-- The smaller root as the machine computes it. -/
def Fpu.nearRoot (fp : Fpu F) (O D : vec3 F) (S : Sphere F) : F :=
  fp.f32 (fp.f32 (-fp.halfB O D S - fp.sqrt (fp.discr O D S)) / fp.dot D D)

/-- The larger root as the machine computes it. -/
def Fpu.farRoot (fp : Fpu F) (O D : vec3 F) (S : Sphere F) : F :=
  fp.f32 (fp.f32 (-fp.halfB O D S + fp.sqrt (fp.discr O D S)) / fp.dot D D)

/-- Membership in `[MIN_RAY_DIST, MAX_RAY_DIST]`, with the `double` value of
`MIN_RAY_DIST`. -/
def Fpu.inRange (fp : Fpu F) (t : F) : Prop := fp.MIN_RAY_DIST ≤ t ∧ t ≤ MAX_RAY_DIST

/-- What the theorems assume of the machine arithmetic: rounding is monotone,
keeps `0` and `1`, keeps every `float`, a `float` is a `double`, and the square
root of a number that is not negative is not negative. -/
structure Fpu.Sound (fp : Fpu F) : Prop where
  f32_mono : ∀ x y : F, x ≤ y → fp.f32 x ≤ fp.f32 y
  f64_mono : ∀ x y : F, x ≤ y → fp.f64 x ≤ fp.f64 y
  f32_zero : fp.f32 0 = 0
  f32_one : fp.f32 1 = 1
  f64_zero : fp.f64 0 = 0
  f64_one : fp.f64 1 = 1
  f32_idem : ∀ x : F, fp.f32 (fp.f32 x) = fp.f32 x
  f64_f32 : ∀ x : F, fp.f64 (fp.f32 x) = fp.f32 x
  sqrt_nonneg : ∀ x : F, 0 ≤ x → 0 ≤ fp.sqrt x

/-- The sRGB encoding of one channel as the machine computes it:
`x < 0.0031308f ? x*12.92f : pow(x, 1.0f/2.4f)*1.055f - 0.055f`. -/
def Fpu.srgbEncode (fp : Fpu F) (M : Libm F) (x : F) : F :=
  if x < fp.f32 (31308 / 10000000) then fp.f32 (x * fp.f32 (1292 / 100))
  else fp.f32 (fp.f32 (fp.f32 (M.pow x (fp.f32 (1 / fp.f32 (24 / 10)))) *
    fp.f32 (1055 / 1000)) - fp.f32 (55 / 1000))

/-- The sRGB decoding of one channel as the machine computes it:
`y < 0.04045f ? y/12.92f : pow((y + 0.055f)/1.055f, 2.4f)`. -/
def Fpu.srgbDecode (fp : Fpu F) (M : Libm F) (y : F) : F :=
  if y < fp.f32 (4045 / 100000) then fp.f32 (y / fp.f32 (1292 / 100))
  else fp.f32 (M.pow (fp.f32 (fp.f32 (y + fp.f32 (55 / 1000)) / fp.f32 (1055 / 1000)))
    (fp.f32 (24 / 10)))

/-- All three components lie in `[0,1]`. -/
def inUnitBox (v : vec3 F) : Prop :=
  (0 ≤ v.x ∧ v.x ≤ 1) ∧ (0 ≤ v.y ∧ v.y ≤ 1) ∧ (0 ≤ v.z ∧ v.z ≤ 1)

/-- What the theorems assume of the library `pow` on a non-negative base: the
result is non-negative, and for a rational exponent `p/q` it is the `q`-th root
of the `p`-th power. -/
structure PowSpec (M : Libm F) : Prop where
  nonneg : ∀ x y : F, 0 ≤ x → 0 ≤ M.pow x y
  rat : ∀ (x : F) (p q : Nat), 0 ≤ x → 0 < q → M.pow x ((p : F) / (q : F)) ^ q = x ^ p

/-- The scalar ACES curve before clamping, `(x(2.51x + 0.03)) / (x(2.43x + 0.59) + 0.14)`. -/
def acesCurve (x : F) : F :=
  x * (x * (251 / 100) + 3 / 100) / (x * (x * (243 / 100) + 59 / 100) + 14 / 100)

/-- The sRGB encoding of one channel in `[0,1]`, as the specification writes
it: `x < 0.0031308 ? x*12.92 : pow(x, 1/2.4)*1.055 - 0.055`. -/
def srgbEncode (M : Libm F) (x : F) : F :=
  if x < 31308 / 10000000 then x * (1292 / 100)
  else M.pow x (1 / (24 / 10)) * (1055 / 1000) - 55 / 1000

/-- The sRGB decoding of one channel in `[0,1]`:
`y < 0.04045 ? y/12.92 : pow((y + 0.055)/1.055, 2.4)`. -/
def srgbDecode (M : Libm F) (y : F) : F :=
  if y < 4045 / 100000 then y / (1292 / 100)
  else M.pow ((y + 55 / 1000) / (1055 / 1000)) (24 / 10)

/-- Component-wise bounds `0 ≤ v ≤ (1, 0.9, 0.9)`. -/
def inRadianceBox (v : vec3 F) : Prop :=
  (0 ≤ v.x ∧ v.x ≤ 1) ∧ (0 ≤ v.y ∧ v.y ≤ 9 / 10) ∧ (0 ≤ v.z ∧ v.z ≤ 9 / 10)

end Defs

end Tracer

/-! Theorems -/

namespace Tracer

section Lemmas

variable {F : Type} [LinearOrderedField F]

theorem vec3.add_def (a b : vec3 F) : a + b = ⟨a.x + b.x, a.y + b.y, a.z + b.z⟩ := rfl

theorem vec3.sub_def (a b : vec3 F) : a - b = ⟨a.x - b.x, a.y - b.y, a.z - b.z⟩ := rfl

theorem vec3.mul_def (a b : vec3 F) : a * b = ⟨a.x * b.x, a.y * b.y, a.z * b.z⟩ := rfl

theorem vec3.div_def (a b : vec3 F) : a / b = ⟨a.x / b.x, a.y / b.y, a.z / b.z⟩ := rfl

theorem vec3.scale_def (a : vec3 F) (b : F) : a * b = ⟨a.x * b, a.y * b, a.z * b⟩ := rfl

/-- The library square root of a square of a non-negative number. -/
theorem SqrtSpec.sqrt_mul_self {M : Libm F} (hM : SqrtSpec M) {x : F} (hx : 0 ≤ x) :
    M.sqrt (x * x) = x := by
  have h0 : 0 ≤ x * x := mul_self_nonneg x
  have h1 := hM.nonneg (x * x) h0
  have h2 := hM.sq (x * x) h0
  rcases mul_self_eq_mul_self_iff.mp h2 with h | h
  · exact h
  · have : x = 0 := by linarith
    rw [h, this]; simp

/-- A non-negative number is the library square root of its square. -/
theorem SqrtSpec.eq_of_sq {M : Libm F} (hM : SqrtSpec M) {x y : F} (hx : 0 ≤ x)
    (h : M.sqrt x = y) : x = y * y := by
  rw [← h, hM.sq x hx]

theorem inRange_iff (t : F) : inRange t ↔ ¬ (t < MIN_RAY_DIST ∨ t > MAX_RAY_DIST) := by
  unfold inRange
  rw [not_or, not_lt, gt_iff_lt, not_lt]

/-- The function `sphereIntersect` written with the vocabulary of the
statements; the two sides are the same term. -/
theorem sphereIntersect_eq (M : Libm F) (O D : vec3 F) (S : Sphere F) :
    sphereIntersect M O D S =
      ⟨(if nearRoot M O D S < MIN_RAY_DIST ∨ nearRoot M O D S > MAX_RAY_DIST then
          if farRoot M O D S < MIN_RAY_DIST ∨ farRoot M O D S > MAX_RAY_DIST then
            (farRoot M O D S, false)
          else (farRoot M O D S, if discr O D S > 0 then true else false)
        else (nearRoot M O D S, if discr O D S > 0 then true else false)).2,
       (O + D * (if nearRoot M O D S < MIN_RAY_DIST ∨ nearRoot M O D S > MAX_RAY_DIST then
          if farRoot M O D S < MIN_RAY_DIST ∨ farRoot M O D S > MAX_RAY_DIST then
            (farRoot M O D S, false)
          else (farRoot M O D S, if discr O D S > 0 then true else false)
        else (nearRoot M O D S, if discr O D S > 0 then true else false)).1 - S.pos) / S.radius,
       O + D * (if nearRoot M O D S < MIN_RAY_DIST ∨ nearRoot M O D S > MAX_RAY_DIST then
          if farRoot M O D S < MIN_RAY_DIST ∨ farRoot M O D S > MAX_RAY_DIST then
            (farRoot M O D S, false)
          else (farRoot M O D S, if discr O D S > 0 then true else false)
        else (nearRoot M O D S, if discr O D S > 0 then true else false)).1,
       S.mat⟩ := rfl

/-- The result of `sphereIntersect` when the smaller root is in range. -/
theorem sphereIntersect_near (M : Libm F) (O D : vec3 F) (S : Sphere F)
    (h : inRange (nearRoot M O D S)) :
    sphereIntersect M O D S =
      ⟨decide (0 < discr O D S), (O + D * nearRoot M O D S - S.pos) / S.radius,
        O + D * nearRoot M O D S, S.mat⟩ := by
  rw [inRange_iff] at h
  rw [sphereIntersect_eq]
  simp only [if_neg h]
  by_cases hd : 0 < discr O D S <;> simp [hd]

/-- The result of `sphereIntersect` when only the larger root is in range. -/
theorem sphereIntersect_far (M : Libm F) (O D : vec3 F) (S : Sphere F)
    (h1 : ¬ inRange (nearRoot M O D S)) (h2 : inRange (farRoot M O D S)) :
    sphereIntersect M O D S =
      ⟨decide (0 < discr O D S), (O + D * farRoot M O D S - S.pos) / S.radius,
        O + D * farRoot M O D S, S.mat⟩ := by
  rw [inRange_iff, not_not] at h1
  rw [inRange_iff] at h2
  rw [sphereIntersect_eq]
  simp only [if_pos h1, if_neg h2]
  by_cases hd : 0 < discr O D S <;> simp [hd]

/-- The result of `sphereIntersect` when neither root is in range. -/
theorem sphereIntersect_none (M : Libm F) (O D : vec3 F) (S : Sphere F)
    (h1 : ¬ inRange (nearRoot M O D S)) (h2 : ¬ inRange (farRoot M O D S)) :
    sphereIntersect M O D S =
      ⟨false, (O + D * farRoot M O D S - S.pos) / S.radius,
        O + D * farRoot M O D S, S.mat⟩ := by
  rw [inRange_iff, not_not] at h1 h2
  rw [sphereIntersect_eq]
  simp only [if_pos h1, if_pos h2]

/-- The flag returned by `sphereIntersect`, in terms of the discriminant and
the two roots. -/
theorem didHit_iff (M : Libm F) (O D : vec3 F) (S : Sphere F) :
    (sphereIntersect M O D S).didHit = true ↔
      0 < discr O D S ∧ (inRange (nearRoot M O D S) ∨ inRange (farRoot M O D S)) := by
  by_cases h1 : inRange (nearRoot M O D S)
  · rw [sphereIntersect_near M O D S h1]
    simp [h1]
  · by_cases h2 : inRange (farRoot M O D S)
    · rw [sphereIntersect_far M O D S h1 h2]
      simp [h2]
    · rw [sphereIntersect_none M O D S h1 h2]
      simp [h1, h2]

theorem length_eq (M : Libm F) (v : vec3 F) : length M v = M.sqrt (dot v v) := rfl

theorem dot_self_nonneg (v : vec3 F) : 0 ≤ dot v v := by
  unfold dot
  have hx := mul_self_nonneg v.x
  have hy := mul_self_nonneg v.y
  have hz := mul_self_nonneg v.z
  linarith

theorem dot_self_eq_zero {v : vec3 F} (h : dot v v = 0) : v.x = 0 ∧ v.y = 0 ∧ v.z = 0 := by
  unfold dot at h
  have hx := mul_self_nonneg v.x
  have hy := mul_self_nonneg v.y
  have hz := mul_self_nonneg v.z
  refine ⟨?_, ?_, ?_⟩ <;> apply mul_self_eq_zero.mp <;> linarith

/-- A positive discriminant needs a direction that is not the zero vector. -/
theorem dir_pos_of_discr_pos {O D : vec3 F} {S : Sphere F} (h : 0 < discr O D S) :
    0 < dot D D := by
  rcases (dot_self_nonneg D).lt_or_eq with h1 | h1
  · exact h1
  · exfalso
    obtain ⟨hx, hy, hz⟩ := dot_self_eq_zero h1.symm
    simp [discr, halfB, dot, hx, hy, hz] at h

/-- Completing the square in `|O + tD - C|² - r²`. -/
theorem quad_identity (O D : vec3 F) (S : Sphere F) (t : F) :
    dot D D * (dot (O + D * t - S.pos) (O + D * t - S.pos) - S.radius * S.radius) =
      (dot D D * t + halfB O D S) * (dot D D * t + halfB O D S) - discr O D S := by
  simp only [discr, halfB, dot, vec3.add_def, vec3.sub_def, vec3.scale_def]
  ring

theorem onSphere_iff_sq {O D : vec3 F} {S : Sphere F} (ha : 0 < dot D D) (t : F) :
    onSphere O D S t ↔
      (dot D D * t + halfB O D S) * (dot D D * t + halfB O D S) = discr O D S := by
  have hq := quad_identity O D S t
  unfold onSphere
  constructor
  · intro h
    rw [h] at hq
    simp only [sub_self, mul_zero] at hq
    linarith
  · intro h
    rw [h, sub_self] at hq
    rcases mul_eq_zero.mp hq with h0 | h0
    · exact absurd h0 ha.ne'
    · linarith

theorem mul_nearRoot (M : Libm F) {O D : vec3 F} (S : Sphere F) (ha : 0 < dot D D) :
    dot D D * nearRoot M O D S + halfB O D S = - M.sqrt (discr O D S) := by
  unfold nearRoot
  rw [mul_div_cancel₀ _ ha.ne']
  ring

theorem mul_farRoot (M : Libm F) {O D : vec3 F} (S : Sphere F) (ha : 0 < dot D D) :
    dot D D * farRoot M O D S + halfB O D S = M.sqrt (discr O D S) := by
  unfold farRoot
  rw [mul_div_cancel₀ _ ha.ne']
  ring

theorem nearRoot_le_farRoot {M : Libm F} (hM : SqrtSpec M) {O D : vec3 F} {S : Sphere F}
    (ha : 0 < dot D D) (hd : 0 ≤ discr O D S) : nearRoot M O D S ≤ farRoot M O D S := by
  have hs := hM.nonneg _ hd
  unfold nearRoot farRoot
  apply div_le_div_of_nonneg_right _ ha.le
  linarith

theorem onSphere_nearRoot {M : Libm F} (hM : SqrtSpec M) {O D : vec3 F} {S : Sphere F}
    (ha : 0 < dot D D) (hd : 0 ≤ discr O D S) : onSphere O D S (nearRoot M O D S) := by
  rw [onSphere_iff_sq ha, mul_nearRoot M S ha, neg_mul_neg, hM.sq _ hd]

theorem onSphere_farRoot {M : Libm F} (hM : SqrtSpec M) {O D : vec3 F} {S : Sphere F}
    (ha : 0 < dot D D) (hd : 0 ≤ discr O D S) : onSphere O D S (farRoot M O D S) := by
  rw [onSphere_iff_sq ha, mul_farRoot M S ha, hM.sq _ hd]

/-- The quadratic has no other roots than the two the code computes. -/
theorem eq_root_of_onSphere {M : Libm F} (hM : SqrtSpec M) {O D : vec3 F} {S : Sphere F}
    (ha : 0 < dot D D) (hd : 0 ≤ discr O D S) {t : F} (ht : onSphere O D S t) :
    t = nearRoot M O D S ∨ t = farRoot M O D S := by
  rw [onSphere_iff_sq ha, ← hM.sq _ hd] at ht
  rcases mul_self_eq_mul_self_iff.mp ht with h | h
  · right
    rw [← mul_farRoot M S ha] at h
    have h2 : dot D D * t = dot D D * farRoot M O D S := by linarith
    exact mul_left_cancel₀ ha.ne' h2
  · left
    rw [← mul_nearRoot M S ha] at h
    have h2 : dot D D * t = dot D D * nearRoot M O D S := by linarith
    exact mul_left_cancel₀ ha.ne' h2

/-- The parameter at which `sphereIntersect` places its hit point. -/
theorem hitPoint_eq (M : Libm F) (O D : vec3 F) (S : Sphere F) :
    (inRange (nearRoot M O D S) →
        (sphereIntersect M O D S).hitPoint = O + D * nearRoot M O D S) ∧
      (¬ inRange (nearRoot M O D S) →
        (sphereIntersect M O D S).hitPoint = O + D * farRoot M O D S) := by
  constructor
  · intro h
    rw [sphereIntersect_near M O D S h]
  · intro h
    by_cases h2 : inRange (farRoot M O D S)
    · rw [sphereIntersect_far M O D S h h2]
    · rw [sphereIntersect_none M O D S h h2]

/-- On a hit the hit point is `O + t·D` for a root `t` in range, the smaller
root if that one is in range. -/
theorem hit_root {M : Libm F} (hM : SqrtSpec M) {O D : vec3 F} {S : Sphere F}
    (hhit : (sphereIntersect M O D S).didHit = true) :
    ∃ t : F, (sphereIntersect M O D S).hitPoint = O + D * t ∧
      (inRange (nearRoot M O D S) → t = nearRoot M O D S) ∧
      (¬ inRange (nearRoot M O D S) → t = farRoot M O D S) ∧
      inRange t ∧ onSphere O D S t ∧
      ∀ u : F, inRange u → onSphere O D S u → t ≤ u := by
  obtain ⟨hd, hr⟩ := (didHit_iff M O D S).mp hhit
  have ha := dir_pos_of_discr_pos hd
  have hle := nearRoot_le_farRoot hM ha hd.le
  by_cases h1 : inRange (nearRoot M O D S)
  · refine ⟨nearRoot M O D S, (hitPoint_eq M O D S).1 h1, fun _ => rfl,
      fun h => absurd h1 h, h1, onSphere_nearRoot hM ha hd.le, ?_⟩
    intro u _ hu
    rcases eq_root_of_onSphere hM ha hd.le hu with h | h
    · exact h.ge
    · rw [h]; exact hle
  · have h2 : inRange (farRoot M O D S) := by
      rcases hr with h | h
      · exact absurd h h1
      · exact h
    refine ⟨farRoot M O D S, (hitPoint_eq M O D S).2 h1, fun h => absurd h h1,
      fun _ => rfl, h2, onSphere_farRoot hM ha hd.le, ?_⟩
    intro u hu1 hu
    rcases eq_root_of_onSphere hM ha hd.le hu with h | h
    · rw [h] at hu1; exact absurd hu1 h1
    · exact h.ge

/-- The real square root meets `SqrtSpec`. -/
theorem real_sqrtSpec : SqrtSpec (Libm.mk Real.sqrt Real.cos Real.sin Real.rpow) :=
  ⟨fun x _ => Real.sqrt_nonneg x, fun _ hx => Real.mul_self_sqrt hx⟩

theorem inRange_num {t : F} (h1 : 1 / 1000 ≤ t) (h2 : t ≤ 10000) : inRange t := ⟨h1, h2⟩

theorem not_inRange_of_lt {t : F} (h : t < 1 / 1000) : ¬ inRange t :=
  fun h1 => absurd h1.1 (not_le.mpr h)

/-- The distance the integrator measures between the ray origin and the point
at parameter `t`. -/
theorem ray_dist (M : Libm F) (O D : vec3 F) (t : F) :
    length M (O - (O + D * t)) = M.sqrt (t * t * dot D D) := by
  rw [length_eq]
  congr 1
  simp only [dot, vec3.add_def, vec3.sub_def, vec3.scale_def]
  ring

/-- The distance of a point at a non-negative parameter along a unit
direction. -/
theorem ray_dist_unit {M : Libm F} (hM : SqrtSpec M) (O : vec3 F) {D : vec3 F}
    (hD : dot D D = 1) {t : F} (ht : 0 ≤ t) : length M (O - (O + D * t)) = t := by
  rw [ray_dist, hD, mul_one, hM.sqrt_mul_self ht]

theorem MIN_RAY_DIST_pos : (0 : F) < MIN_RAY_DIST := by
  unfold MIN_RAY_DIST
  norm_num

theorem inRange_nonneg {t : F} (h : inRange t) : 0 ≤ t :=
  (MIN_RAY_DIST_pos.trans_le h.1).le

end Lemmas

/-! The intersector -/

section Intersector

variable {F : Type} [LinearOrderedField F]

/-- C1: for a ray with `D·D > 0`, `sphereIntersect` reports `didHit = true`
exactly when the discriminant `half_b² - a·c` is strictly positive and at
least one of the two roots lies in `[MIN_RAY_DIST, MAX_RAY_DIST]`; a tangent
ray (discriminant `0`) is a miss whatever its root. -/
theorem sphereIntersect_didHit_policy (M : Libm F) (O D : vec3 F) (S : Sphere F)
    (_hD : 0 < dot D D) :
    ((sphereIntersect M O D S).didHit = true ↔
        0 < discr O D S ∧ (inRange (nearRoot M O D S) ∨ inRange (farRoot M O D S))) ∧
      (discr O D S = 0 → (sphereIntersect M O D S).didHit = false) := by
  refine ⟨didHit_iff M O D S, fun h0 => ?_⟩
  rw [← Bool.not_eq_true, didHit_iff, h0]
  exact fun h => lt_irrefl _ h.1

/-- C1 at the ray from `(0,0,-5)` along `+z` and the unit sphere at the
origin, over the reals. -/
theorem sphereIntersect_didHit_policy_witness :
    0 < dot (⟨0, 0, 1⟩ : vec3 ℝ) ⟨0, 0, 1⟩ ∧
    (((sphereIntersect (Libm.mk Real.sqrt Real.cos Real.sin Real.rpow)
          (⟨0, 0, -5⟩ : vec3 ℝ) ⟨0, 0, 1⟩ ⟨⟨0, 0, 0⟩, 1, matteWhite⟩).didHit = true ↔
        0 < discr (⟨0, 0, -5⟩ : vec3 ℝ) ⟨0, 0, 1⟩ ⟨⟨0, 0, 0⟩, 1, matteWhite⟩ ∧
          (inRange (nearRoot (Libm.mk Real.sqrt Real.cos Real.sin Real.rpow)
              (⟨0, 0, -5⟩ : vec3 ℝ) ⟨0, 0, 1⟩ ⟨⟨0, 0, 0⟩, 1, matteWhite⟩) ∨
           inRange (farRoot (Libm.mk Real.sqrt Real.cos Real.sin Real.rpow)
              (⟨0, 0, -5⟩ : vec3 ℝ) ⟨0, 0, 1⟩ ⟨⟨0, 0, 0⟩, 1, matteWhite⟩))) ∧
      (discr (⟨0, 0, -5⟩ : vec3 ℝ) ⟨0, 0, 1⟩ ⟨⟨0, 0, 0⟩, 1, matteWhite⟩ = 0 →
        (sphereIntersect (Libm.mk Real.sqrt Real.cos Real.sin Real.rpow)
          (⟨0, 0, -5⟩ : vec3 ℝ) ⟨0, 0, 1⟩ ⟨⟨0, 0, 0⟩, 1, matteWhite⟩).didHit = false)) :=
  ⟨by norm_num [dot], sphereIntersect_didHit_policy _ _ _ _ (by norm_num [dot])⟩

end Intersector

/-! Rounding -/

section Rounding

theorem nbits_zero (fuel : Nat) : nbits fuel 0 = 0 := by
  cases fuel <;> simp [nbits]

theorem nbits_spec (fuel n : Nat) (h : n ≤ fuel) (hn : n ≠ 0) :
    ∃ k, nbits fuel n = k + 1 ∧ 2 ^ k ≤ n ∧ n < 2 ^ (k + 1) := by
  induction fuel generalizing n with
  | zero => omega
  | succ f ih =>
    simp only [nbits, hn, if_false]
    by_cases h2 : n / 2 = 0
    · have h1 : n = 1 := by omega
      subst h1
      exact ⟨0, by simp [nbits_zero], by norm_num, by norm_num⟩
    · obtain ⟨k, hk, h1, h3⟩ := ih (n / 2) (by omega) h2
      refine ⟨k + 1, by rw [hk], ?_, ?_⟩
      · rw [pow_succ]; omega
      · rw [pow_succ]; omega

theorem ilog2_spec {q : ℚ} (hq : q ≠ 0) :
    (2 : ℚ) ^ ilog2 q ≤ |q| ∧ |q| < (2 : ℚ) ^ (ilog2 q + 1) := by
  have hn : q.num.natAbs ≠ 0 := by
    simpa [Int.natAbs_eq_zero] using (Rat.num_ne_zero.mpr hq)
  obtain ⟨kn, hkn, hn1, hn2⟩ := nbits_spec _ _ le_rfl hn
  obtain ⟨kd, hkd, hd1, hd2⟩ := nbits_spec _ _ le_rfl q.den_nz
  have habs : |q| = (q.num.natAbs : ℚ) / (q.den : ℚ) := by
    conv_lhs => rw [← Rat.num_div_den q]
    rw [abs_div, Nat.abs_cast, Nat.cast_natAbs, Int.cast_abs]
  have hd0 : (0 : ℚ) < q.den := by exact_mod_cast q.den_pos
  have hn1q : (2 : ℚ) ^ kn ≤ (q.num.natAbs : ℚ) := by exact_mod_cast hn1
  have hn2q : (q.num.natAbs : ℚ) < (2 : ℚ) ^ (kn + 1) := by exact_mod_cast hn2
  have hd1q : (2 : ℚ) ^ kd ≤ (q.den : ℚ) := by exact_mod_cast hd1
  have hd2q : (q.den : ℚ) < (2 : ℚ) ^ (kd + 1) := by exact_mod_cast hd2
  have hn0 : (0 : ℚ) ≤ (q.num.natAbs : ℚ) := Nat.cast_nonneg _
  have he : (((kn + 1 : ℕ) : ℤ) - ((kd + 1 : ℕ) : ℤ)) = (kn : ℤ) - kd := by push_cast; ring
  have e1 : (2 : ℚ) ^ ((kn : ℤ) - kd + 1) = (2 : ℚ) ^ (kn + 1) / (2 : ℚ) ^ kd := by
    rw [show (kn : ℤ) - kd + 1 = ((kn + 1 : ℕ) : ℤ) - ((kd : ℕ) : ℤ) by push_cast; ring,
      zpow_sub₀ (by norm_num), zpow_natCast, zpow_natCast]
  have e2 : (2 : ℚ) ^ ((kn : ℤ) - kd - 1) = (2 : ℚ) ^ kn / (2 : ℚ) ^ (kd + 1) := by
    rw [show (kn : ℤ) - kd - 1 = ((kn : ℕ) : ℤ) - ((kd + 1 : ℕ) : ℤ) by push_cast; ring,
      zpow_sub₀ (by norm_num), zpow_natCast, zpow_natCast]
  have hup : |q| < (2 : ℚ) ^ ((kn : ℤ) - kd + 1) := by
    rw [e1, habs, div_lt_div_iff₀ hd0 (by positivity)]
    calc (q.num.natAbs : ℚ) * 2 ^ kd ≤ (q.num.natAbs : ℚ) * q.den :=
          mul_le_mul_of_nonneg_left hd1q hn0
      _ < 2 ^ (kn + 1) * q.den := mul_lt_mul_of_pos_right hn2q hd0
  have hlo : (2 : ℚ) ^ ((kn : ℤ) - kd - 1) ≤ |q| := by
    rw [e2, habs, div_le_div_iff₀ (by positivity) hd0]
    calc (2 : ℚ) ^ kn * q.den ≤ (q.num.natAbs : ℚ) * q.den :=
          mul_le_mul_of_nonneg_right hn1q hd0.le
      _ ≤ (q.num.natAbs : ℚ) * 2 ^ (kd + 1) := mul_le_mul_of_nonneg_left hd2q.le hn0
  unfold ilog2
  simp only [hkn, hkd, he]
  split_ifs with h
  · exact ⟨h, hup⟩
  · refine ⟨hlo, ?_⟩
    rw [sub_add_cancel]
    exact not_le.mp h

theorem rne_floor_le (x : ℚ) : Int.floor x ≤ roundNearestEven x := by
  unfold roundNearestEven
  simp only []
  split_ifs <;> omega

theorem rne_le (x : ℚ) : roundNearestEven x ≤ Int.floor x + 1 := by
  unfold roundNearestEven
  simp only []
  split_ifs <;> omega

theorem rne_int (n : ℤ) : roundNearestEven (n : ℚ) = n := by
  unfold roundNearestEven
  simp

theorem rne_mono {x y : ℚ} (h : x ≤ y) : roundNearestEven x ≤ roundNearestEven y := by
  have hf : Int.floor x ≤ Int.floor y := Int.floor_mono h
  rcases hf.lt_or_eq with hlt | heq
  · calc roundNearestEven x ≤ Int.floor x + 1 := rne_le x
      _ ≤ Int.floor y := hlt
      _ ≤ roundNearestEven y := rne_floor_le y
  · unfold roundNearestEven
    simp only []
    rw [heq]
    split_ifs <;> first | omega | (exfalso; linarith)

theorem two_zpow_pos (k : ℤ) : (0 : ℚ) < (2 : ℚ) ^ k := zpow_pos (by norm_num) k

theorem roundTo_nonneg (p : Nat) (emin : Int) {q : ℚ} (h : 0 ≤ q) : 0 ≤ roundTo p emin q := by
  unfold roundTo
  split_ifs with h0
  · exact le_rfl
  · simp only []
    refine mul_nonneg ?_ (two_zpow_pos _).le
    have h1 : 0 ≤ Int.floor (q / (2 : ℚ) ^ (max (ilog2 q) emin - ((p : ℤ) - 1))) :=
      Int.floor_nonneg.mpr (div_nonneg h (two_zpow_pos _).le)
    exact_mod_cast h1.trans (rne_floor_le _)

theorem roundTo_nonpos (p : Nat) (emin : Int) {q : ℚ} (h : q ≤ 0) : roundTo p emin q ≤ 0 := by
  unfold roundTo
  split_ifs with h0
  · exact le_rfl
  · simp only []
    refine mul_nonpos_of_nonpos_of_nonneg ?_ (two_zpow_pos _).le
    have h1 := rne_mono (div_nonpos_of_nonpos_of_nonneg h
      (two_zpow_pos (max (ilog2 q) emin - ((p : ℤ) - 1))).le)
    have h2 : roundNearestEven (0 : ℚ) = 0 := by simpa using rne_int 0
    rw [h2] at h1
    exact_mod_cast h1

theorem abs_lt_top (emin : Int) {q : ℚ} (hq : q ≠ 0) :
    |q| < (2 : ℚ) ^ (max (ilog2 q) emin + 1) :=
  lt_of_lt_of_le (ilog2_spec hq).2
    (zpow_le_zpow_right₀ one_le_two (by have := le_max_left (ilog2 q) emin; omega))

theorem bot_le_abs (emin : Int) {q : ℚ} (hq : q ≠ 0) (h : emin < max (ilog2 q) emin) :
    (2 : ℚ) ^ (max (ilog2 q) emin) ≤ |q| := by
  have : max (ilog2 q) emin = ilog2 q := by
    rcases le_total (ilog2 q) emin with h1 | h1
    · rw [max_eq_right h1] at h; omega
    · exact max_eq_left h1
  rw [this]
  exact (ilog2_spec hq).1

theorem top_eq (p : Nat) (E : Int) :
    (2 : ℚ) ^ (E + 1) = (((2 : ℤ) ^ p : ℤ) : ℚ) * (2 : ℚ) ^ (E - ((p : ℤ) - 1)) := by
  push_cast
  rw [← zpow_natCast, ← zpow_add₀ (by norm_num)]
  congr 1
  ring

theorem bot_eq (p : Nat) (hp : 1 ≤ p) (E : Int) :
    (2 : ℚ) ^ E = (((2 : ℤ) ^ (p - 1) : ℤ) : ℚ) * (2 : ℚ) ^ (E - ((p : ℤ) - 1)) := by
  push_cast
  rw [← zpow_natCast, ← zpow_add₀ (by norm_num)]
  congr 1
  rw [Nat.cast_sub hp]
  push_cast
  ring

theorem ilog2_mono_abs {a b : ℚ} (ha : a ≠ 0) (hb : b ≠ 0) (h : |a| ≤ |b|) :
    ilog2 a ≤ ilog2 b := by
  have h1 := (ilog2_spec ha).1
  have h2 := (ilog2_spec hb).2
  have h3 : (2 : ℚ) ^ ilog2 a < (2 : ℚ) ^ (ilog2 b + 1) := lt_of_le_of_lt (h1.trans h) h2
  have := (zpow_lt_zpow_iff_right₀ (one_lt_two : (1 : ℚ) < 2)).mp h3
  omega

/-- The scaled operand is below `2 ^ p` in absolute value. -/
theorem scaled_lt (p : Nat) (emin : Int) {q : ℚ} (hq : q ≠ 0) :
    |q / (2 : ℚ) ^ (max (ilog2 q) emin - ((p : ℤ) - 1))| < (((2 : ℤ) ^ p : ℤ) : ℚ) := by
  rw [abs_div, abs_of_pos (two_zpow_pos _), div_lt_iff₀ (two_zpow_pos _), ← top_eq]
  exact abs_lt_top emin hq

theorem scaled_ge (p : Nat) (hp : 1 ≤ p) (emin : Int) {q : ℚ} (hq : q ≠ 0)
    (h : emin < max (ilog2 q) emin) :
    (((2 : ℤ) ^ (p - 1) : ℤ) : ℚ) ≤ |q / (2 : ℚ) ^ (max (ilog2 q) emin - ((p : ℤ) - 1))| := by
  rw [abs_div, abs_of_pos (two_zpow_pos _), le_div_iff₀ (two_zpow_pos _), ← bot_eq p hp]
  exact bot_le_abs emin hq h

theorem roundTo_mono_pos (p : Nat) (hp : 1 ≤ p) (emin : Int) {a b : ℚ} (ha : 0 < a)
    (hab : a ≤ b) : roundTo p emin a ≤ roundTo p emin b := by
  have hb : 0 < b := lt_of_lt_of_le ha hab
  have hE : max (ilog2 a) emin ≤ max (ilog2 b) emin :=
    max_le_max (ilog2_mono_abs ha.ne' hb.ne' (by rwa [abs_of_pos ha, abs_of_pos hb])) le_rfl
  simp only [roundTo, ha.ne', hb.ne', if_false]
  rcases hE.eq_or_lt with heq | hlt
  · rw [heq]
    refine mul_le_mul_of_nonneg_right ?_ (two_zpow_pos _).le
    exact_mod_cast rne_mono (div_le_div_of_nonneg_right hab (two_zpow_pos _).le)
  · have h1 : roundNearestEven (a / (2 : ℚ) ^ (max (ilog2 a) emin - ((p : ℤ) - 1)))
        ≤ (2 : ℤ) ^ p := by
      have h := scaled_lt p emin ha.ne'
      have := rne_mono ((le_abs_self _).trans h.le)
      rwa [rne_int] at this
    have h2 : (2 : ℤ) ^ (p - 1)
        ≤ roundNearestEven (b / (2 : ℚ) ^ (max (ilog2 b) emin - ((p : ℤ) - 1))) := by
      have h := scaled_ge p hp emin hb.ne' (lt_of_le_of_lt (le_max_right _ _) hlt)
      rw [abs_of_pos (div_pos hb (two_zpow_pos _))] at h
      have := rne_mono h
      rwa [rne_int] at this
    calc (roundNearestEven (a / (2 : ℚ) ^ (max (ilog2 a) emin - ((p : ℤ) - 1))) : ℚ)
          * (2 : ℚ) ^ (max (ilog2 a) emin - ((p : ℤ) - 1))
        ≤ (((2 : ℤ) ^ p : ℤ) : ℚ) * (2 : ℚ) ^ (max (ilog2 a) emin - ((p : ℤ) - 1)) :=
          mul_le_mul_of_nonneg_right (by exact_mod_cast h1) (two_zpow_pos _).le
      _ = (2 : ℚ) ^ (max (ilog2 a) emin + 1) := (top_eq p _).symm
      _ ≤ (2 : ℚ) ^ (max (ilog2 b) emin) := zpow_le_zpow_right₀ one_le_two (by omega)
      _ = (((2 : ℤ) ^ (p - 1) : ℤ) : ℚ) * (2 : ℚ) ^ (max (ilog2 b) emin - ((p : ℤ) - 1)) :=
          bot_eq p hp _
      _ ≤ _ := mul_le_mul_of_nonneg_right (by exact_mod_cast h2) (two_zpow_pos _).le

theorem roundTo_mono_neg (p : Nat) (hp : 1 ≤ p) (emin : Int) {a b : ℚ} (hb : b < 0)
    (hab : a ≤ b) : roundTo p emin a ≤ roundTo p emin b := by
  have ha : a < 0 := lt_of_le_of_lt hab hb
  have hE : max (ilog2 b) emin ≤ max (ilog2 a) emin :=
    max_le_max (ilog2_mono_abs hb.ne ha.ne
      (by rw [abs_of_neg ha, abs_of_neg hb]; linarith)) le_rfl
  simp only [roundTo, ha.ne, hb.ne, if_false]
  rcases hE.eq_or_lt with heq | hlt
  · rw [heq]
    refine mul_le_mul_of_nonneg_right ?_ (two_zpow_pos _).le
    exact_mod_cast rne_mono (div_le_div_of_nonneg_right hab (two_zpow_pos _).le)
  · have h1 : -((2 : ℤ) ^ p)
        ≤ roundNearestEven (b / (2 : ℚ) ^ (max (ilog2 b) emin - ((p : ℤ) - 1))) := by
      have h := scaled_lt p emin hb.ne
      have h3 : ((-((2 : ℤ) ^ p) : ℤ) : ℚ)
          ≤ b / (2 : ℚ) ^ (max (ilog2 b) emin - ((p : ℤ) - 1)) := by
        push_cast
        have := neg_abs_le (b / (2 : ℚ) ^ (max (ilog2 b) emin - ((p : ℤ) - 1)))
        push_cast at h
        linarith
      have := rne_mono h3
      rwa [rne_int] at this
    have h2 : roundNearestEven (a / (2 : ℚ) ^ (max (ilog2 a) emin - ((p : ℤ) - 1)))
        ≤ -((2 : ℤ) ^ (p - 1)) := by
      have h := scaled_ge p hp emin ha.ne (lt_of_le_of_lt (le_max_right _ _) hlt)
      rw [abs_of_neg (div_neg_of_neg_of_pos ha (two_zpow_pos _))] at h
      have h3 : a / (2 : ℚ) ^ (max (ilog2 a) emin - ((p : ℤ) - 1))
          ≤ ((-((2 : ℤ) ^ (p - 1)) : ℤ) : ℚ) := by
        push_cast
        push_cast at h
        linarith
      have := rne_mono h3
      rwa [rne_int] at this
    calc (roundNearestEven (a / (2 : ℚ) ^ (max (ilog2 a) emin - ((p : ℤ) - 1))) : ℚ)
          * (2 : ℚ) ^ (max (ilog2 a) emin - ((p : ℤ) - 1))
        ≤ ((-((2 : ℤ) ^ (p - 1)) : ℤ) : ℚ) * (2 : ℚ) ^ (max (ilog2 a) emin - ((p : ℤ) - 1)) :=
          mul_le_mul_of_nonneg_right (by exact_mod_cast h2) (two_zpow_pos _).le
      _ = -(2 : ℚ) ^ (max (ilog2 a) emin) := by
          rw [bot_eq p hp (max (ilog2 a) emin)]; push_cast; ring
      _ ≤ -(2 : ℚ) ^ (max (ilog2 b) emin + 1) :=
          neg_le_neg (zpow_le_zpow_right₀ one_le_two (by omega))
      _ = ((-((2 : ℤ) ^ p) : ℤ) : ℚ) * (2 : ℚ) ^ (max (ilog2 b) emin - ((p : ℤ) - 1)) := by
          rw [top_eq p (max (ilog2 b) emin)]; push_cast; ring
      _ ≤ _ := mul_le_mul_of_nonneg_right (by exact_mod_cast h1) (two_zpow_pos _).le

theorem roundTo_mono (p : Nat) (hp : 1 ≤ p) (emin : Int) : Monotone (roundTo p emin) := by
  intro a b hab
  rcases lt_or_le 0 a with ha | ha
  · exact roundTo_mono_pos p hp emin ha hab
  · rcases lt_or_le b 0 with hb | hb
    · exact roundTo_mono_neg p hp emin hb hab
    · exact (roundTo_nonpos p emin ha).trans (roundTo_nonneg p emin hb)

theorem rne_abs_le {x : ℚ} {N : ℤ} (h : |x| ≤ (N : ℚ)) : |roundNearestEven x| ≤ N := by
  have h1 := rne_mono (abs_le.mp h).2
  have h2 := rne_mono (abs_le.mp h).1
  rw [rne_int] at h1
  rw [show (-(N : ℚ)) = ((-N : ℤ) : ℚ) by push_cast; rfl, rne_int] at h2
  exact abs_le.mpr ⟨h2, h1⟩

theorem roundTo_fixed (p : Nat) (emin : Int) {r : ℚ} (z : ℤ)
    (h : r = (z : ℚ) * (2 : ℚ) ^ (max (ilog2 r) emin - ((p : ℤ) - 1))) :
    roundTo p emin r = r := by
  unfold roundTo
  split_ifs with h0
  · exact h0.symm
  · simp only []
    have h1 : r / (2 : ℚ) ^ (max (ilog2 r) emin - ((p : ℤ) - 1)) = (z : ℚ) :=
      (div_eq_iff (two_zpow_pos _).ne').mpr h
    rw [h1, rne_int]
    exact h.symm

theorem roundTo_zero (p : Nat) (emin : Int) : roundTo p emin 0 = 0 := by
  simp [roundTo]

theorem roundTo_roundTo (p p2 : Nat) (hp : 1 ≤ p) (hpp : p ≤ p2) (emin emin2 : Int)
    (he : emin2 ≤ emin) (q : ℚ) :
    roundTo p2 emin2 (roundTo p emin q) = roundTo p emin q := by
  by_cases hq : q = 0
  · rw [hq, roundTo_zero, roundTo_zero]
  obtain ⟨m, hm, hr⟩ : ∃ m : ℤ, |m| ≤ (2 : ℤ) ^ p ∧
      roundTo p emin q = (m : ℚ) * (2 : ℚ) ^ (max (ilog2 q) emin - ((p : ℤ) - 1)) :=
    ⟨_, rne_abs_le (scaled_lt p emin hq).le, by simp only [roundTo, hq, if_false]⟩
  generalize roundTo p emin q = r at hr
  have hEmin : emin ≤ max (ilog2 q) emin := le_max_right _ _
  generalize max (ilog2 q) emin = E at hr hEmin
  by_cases hr0 : r = 0
  · rw [hr0, roundTo_zero]
  have habs : |r| ≤ (2 : ℚ) ^ (E + 1) := by
    rw [hr, abs_mul, abs_of_pos (two_zpow_pos _), top_eq p E]
    refine mul_le_mul_of_nonneg_right ?_ (two_zpow_pos _).le
    exact_mod_cast hm
  have hL : ilog2 r ≤ E + 1 := by
    have h3 := lt_of_le_of_lt ((ilog2_spec hr0).1.trans habs)
      (zpow_lt_zpow_right₀ (one_lt_two : (1 : ℚ) < 2) (lt_add_one (E + 1)))
    have := (zpow_lt_zpow_iff_right₀ (one_lt_two : (1 : ℚ) < 2)).mp h3
    omega
  have hp2 : 1 ≤ p2 := hp.trans hpp
  rcases le_or_lt (max (ilog2 r) emin2) E with hE | hE
  · -- the unit of the wider format divides the unit of the narrower one
    obtain ⟨k, hk⟩ : ∃ k : ℕ, (k : ℤ) = E - max (ilog2 r) emin2 + ((p2 : ℤ) - p) :=
      ⟨(E - max (ilog2 r) emin2 + ((p2 : ℤ) - p)).toNat, Int.toNat_of_nonneg (by omega)⟩
    refine roundTo_fixed p2 emin2 (m * (2 : ℤ) ^ k) (hr.trans ?_)
    push_cast
    rw [mul_assoc, ← zpow_natCast, ← zpow_add₀ (by norm_num), hk]
    congr 2
    ring
  · -- the rounded value is a power of two at the top of its binade
    have hLE : max (ilog2 r) emin2 = E + 1 := by
      have h1 : max (ilog2 r) emin2 ≤ E + 1 := max_le hL (by omega)
      omega
    have hl : ilog2 r = E + 1 := by
      rcases le_total (ilog2 r) emin2 with h1 | h1
      · rw [max_eq_right h1] at hLE; omega
      · rw [max_eq_left h1] at hLE; exact hLE
    have hge : (2 : ℚ) ^ (E + 1) ≤ |r| := by
      have := (ilog2_spec hr0).1
      rwa [hl] at this
    have heq : |r| = (2 : ℚ) ^ (E + 1) := le_antisymm habs hge
    rcases abs_cases r with ⟨h1, _⟩ | ⟨h1, _⟩
    · refine roundTo_fixed p2 emin2 ((2 : ℤ) ^ (p2 - 1)) ?_
      rw [hLE, ← bot_eq p2 hp2, ← heq, h1]
    · refine roundTo_fixed p2 emin2 (-((2 : ℤ) ^ (p2 - 1))) ?_
      rw [hLE]
      have h2 : r = -|r| := by rw [h1]; ring
      rw [h2, heq, bot_eq p2 hp2 (E + 1)]
      push_cast
      ring

theorem sqrtTo_nonneg (p : Nat) (emin : Int) (q : ℚ) : 0 ≤ sqrtTo p emin q := by
  unfold sqrtTo
  split_ifs with h
  · exact le_rfl
  · simp only []
    refine roundTo_nonneg p emin (mul_nonneg ?_ (two_zpow_pos _).le)
    split_ifs
    · exact Nat.cast_nonneg _
    · exact add_nonneg (Nat.cast_nonneg _) (by norm_num)

/-- The IEEE 754 model meets what the theorems assume of the machine. -/
theorem ieee_sound : ieee.Sound where
  f32_mono := roundTo_mono 24 (by norm_num) (-126)
  f64_mono := roundTo_mono 53 (by norm_num) (-1022)
  f32_zero := roundTo_zero 24 (-126)
  f32_one := by decide!
  f64_zero := roundTo_zero 53 (-1022)
  f64_one := by decide!
  f32_idem := roundTo_roundTo 24 24 (by norm_num) le_rfl (-126) (-126) le_rfl
  f64_f32 := roundTo_roundTo 24 53 (by norm_num) (by norm_num) (-126) (-1022) (by norm_num)
  sqrt_nonneg := fun x _ => sqrtTo_nonneg 24 (-126) x

end Rounding

/-! The intersector in machine arithmetic -/

section MachineIntersector

variable {F : Type} [LinearOrderedField F]

/-- In exact arithmetic the machine version of `sphereIntersect` is the
function `sphereIntersect` of the field. -/
theorem Fpu.sphereIntersect_exact (M : Libm F) (O D : vec3 F) (S : Sphere F) :
    (Fpu.exact M.sqrt).sphereIntersect O D S = Tracer.sphereIntersect M O D S := rfl

theorem Fpu.inRange_iff_not (fp : Fpu F) (t : F) :
    fp.inRange t ↔ ¬ (t < fp.MIN_RAY_DIST ∨ t > MAX_RAY_DIST) := by
  unfold Fpu.inRange
  rw [not_or, not_lt, gt_iff_lt, not_lt]

/-- The machine version of `sphereIntersect` written with the vocabulary of
the statements; the two sides are the same term. -/
theorem Fpu.sphereIntersect_terms (fp : Fpu F) (O D : vec3 F) (S : Sphere F) :
    fp.sphereIntersect O D S =
      ⟨(if fp.nearRoot O D S < fp.MIN_RAY_DIST ∨ fp.nearRoot O D S > MAX_RAY_DIST then
          if fp.farRoot O D S < fp.MIN_RAY_DIST ∨ fp.farRoot O D S > MAX_RAY_DIST then
            (fp.farRoot O D S, false)
          else (fp.farRoot O D S, if fp.discr O D S > 0 then true else false)
        else (fp.nearRoot O D S, if fp.discr O D S > 0 then true else false)).2,
       fp.divs (fp.sub (fp.add O (fp.scale D
        (if fp.nearRoot O D S < fp.MIN_RAY_DIST ∨ fp.nearRoot O D S > MAX_RAY_DIST then
          if fp.farRoot O D S < fp.MIN_RAY_DIST ∨ fp.farRoot O D S > MAX_RAY_DIST then
            (fp.farRoot O D S, false)
          else (fp.farRoot O D S, if fp.discr O D S > 0 then true else false)
        else (fp.nearRoot O D S, if fp.discr O D S > 0 then true else false)).1)) S.pos)
        S.radius,
       fp.add O (fp.scale D
        (if fp.nearRoot O D S < fp.MIN_RAY_DIST ∨ fp.nearRoot O D S > MAX_RAY_DIST then
          if fp.farRoot O D S < fp.MIN_RAY_DIST ∨ fp.farRoot O D S > MAX_RAY_DIST then
            (fp.farRoot O D S, false)
          else (fp.farRoot O D S, if fp.discr O D S > 0 then true else false)
        else (fp.nearRoot O D S, if fp.discr O D S > 0 then true else false)).1),
       S.mat⟩ := rfl

/-- The machine result when the smaller root is in range. -/
theorem Fpu.sphereIntersect_at_near (fp : Fpu F) (O D : vec3 F) (S : Sphere F)
    (h : fp.inRange (fp.nearRoot O D S)) :
    fp.sphereIntersect O D S =
      ⟨decide (0 < fp.discr O D S),
        fp.divs (fp.sub (fp.add O (fp.scale D (fp.nearRoot O D S))) S.pos) S.radius,
        fp.add O (fp.scale D (fp.nearRoot O D S)), S.mat⟩ := by
  rw [Fpu.inRange_iff_not] at h
  rw [Fpu.sphereIntersect_terms]
  simp only [if_neg h]
  by_cases hd : 0 < fp.discr O D S <;> simp [hd]

/-- The machine result when only the larger root is in range. -/
theorem Fpu.sphereIntersect_at_far (fp : Fpu F) (O D : vec3 F) (S : Sphere F)
    (h1 : ¬ fp.inRange (fp.nearRoot O D S)) (h2 : fp.inRange (fp.farRoot O D S)) :
    fp.sphereIntersect O D S =
      ⟨decide (0 < fp.discr O D S),
        fp.divs (fp.sub (fp.add O (fp.scale D (fp.farRoot O D S))) S.pos) S.radius,
        fp.add O (fp.scale D (fp.farRoot O D S)), S.mat⟩ := by
  rw [Fpu.inRange_iff_not, not_not] at h1
  rw [Fpu.inRange_iff_not] at h2
  rw [Fpu.sphereIntersect_terms]
  simp only [if_pos h1, if_neg h2]
  by_cases hd : 0 < fp.discr O D S <;> simp [hd]

/-- The machine result when neither root is in range. -/
theorem Fpu.sphereIntersect_at_none (fp : Fpu F) (O D : vec3 F) (S : Sphere F)
    (h1 : ¬ fp.inRange (fp.nearRoot O D S)) (h2 : ¬ fp.inRange (fp.farRoot O D S)) :
    fp.sphereIntersect O D S =
      ⟨false, fp.divs (fp.sub (fp.add O (fp.scale D (fp.farRoot O D S))) S.pos) S.radius,
        fp.add O (fp.scale D (fp.farRoot O D S)), S.mat⟩ := by
  rw [Fpu.inRange_iff_not, not_not] at h1 h2
  rw [Fpu.sphereIntersect_terms]
  simp only [if_pos h1, if_pos h2]

/-- The flag of the machine version, in terms of the computed discriminant and
the two computed roots. -/
theorem Fpu.didHit_iff_computed (fp : Fpu F) (O D : vec3 F) (S : Sphere F) :
    (fp.sphereIntersect O D S).didHit = true ↔
      0 < fp.discr O D S ∧
        (fp.inRange (fp.nearRoot O D S) ∨ fp.inRange (fp.farRoot O D S)) := by
  by_cases h1 : fp.inRange (fp.nearRoot O D S)
  · rw [Fpu.sphereIntersect_at_near fp O D S h1]
    simp [h1]
  · by_cases h2 : fp.inRange (fp.farRoot O D S)
    · rw [Fpu.sphereIntersect_at_far fp O D S h1 h2]
      simp [h2]
    · rw [Fpu.sphereIntersect_at_none fp O D S h1 h2]
      simp [h1, h2]

/-- The hit point of the machine version. -/
theorem Fpu.hitPoint_computed (fp : Fpu F) (O D : vec3 F) (S : Sphere F) :
    (fp.inRange (fp.nearRoot O D S) →
        (fp.sphereIntersect O D S).hitPoint = fp.add O (fp.scale D (fp.nearRoot O D S))) ∧
      (¬ fp.inRange (fp.nearRoot O D S) →
        (fp.sphereIntersect O D S).hitPoint = fp.add O (fp.scale D (fp.farRoot O D S))) := by
  constructor
  · intro h
    rw [Fpu.sphereIntersect_at_near fp O D S h]
  · intro h
    by_cases h2 : fp.inRange (fp.farRoot O D S)
    · rw [Fpu.sphereIntersect_at_far fp O D S h h2]
    · rw [Fpu.sphereIntersect_at_none fp O D S h h2]

/-- Rounding keeps the sign. -/
theorem Fpu.Sound.f32_nonneg {fp : Fpu F} (h : fp.Sound) {x : F} (hx : 0 ≤ x) :
    0 ≤ fp.f32 x := by
  have := h.f32_mono 0 x hx
  rwa [h.f32_zero] at this

/-- The square roots that the statements below evaluate in IEEE arithmetic
are correctly rounded: each is within half a unit in the last place of the
real square root, `(s - h)² < d < (s + h)²` with `h = 2^-24` for `s` in
`[1, 2)` and `h = 2^-30` for `s` in `[2^-6, 2^-5)`. -/
theorem ieee_sqrt_checked :
    (ieee.sqrt (8891009 / 8388608) = 2159039 / 2097152 ∧
      ((2159039 / 2097152 - 1 / 2 ^ 24) ^ 2 : ℚ) < 8891009 / 8388608 ∧
      (8891009 / 8388608 : ℚ) < (2159039 / 2097152 + 1 / 2 ^ 24) ^ 2) ∧
    (ieee.sqrt (19 / 16) = 4570637 / 4194304 ∧
      ((4570637 / 4194304 - 1 / 2 ^ 24) ^ 2 : ℚ) < 19 / 16 ∧
      (19 / 16 : ℚ) < (4570637 / 4194304 + 1 / 2 ^ 24) ^ 2) ∧
    (ieee.sqrt (21 / 32768) = 6795549 / 268435456 ∧
      ((6795549 / 268435456 - 1 / 2 ^ 30) ^ 2 : ℚ) < 21 / 32768 ∧
      (21 / 32768 : ℚ) < (6795549 / 268435456 + 1 / 2 ^ 30) ^ 2) ∧
    (ieee.sqrt (631217 / 1073741824) = 13016951 / 536870912 ∧
      ((13016951 / 536870912 - 1 / 2 ^ 30) ^ 2 : ℚ) < 631217 / 1073741824 ∧
      (631217 / 1073741824 : ℚ) < (13016951 / 536870912 + 1 / 2 ^ 30) ^ 2) := by
  decide!

/-- C2, as amended: for a ray with `D·D > 0`, when `sphereIntersect` reports a
hit, the returned `hitPoint` is `O + t·D`, product and sum rounded to `float`,
where `t` is the computed smaller root if that root lies in
`[MIN_RAY_DIST, MAX_RAY_DIST]` and the computed larger root otherwise; `t`
lies in that range and the computed discriminant is positive. -/
theorem sphereIntersect_hitPoint_accepted_root (fp : Fpu F) (O D : vec3 F) (S : Sphere F)
    (_hD : 0 < fp.dot D D) (hhit : (fp.sphereIntersect O D S).didHit = true) :
    ∃ t : F, (fp.sphereIntersect O D S).hitPoint = fp.add O (fp.scale D t) ∧
      (fp.inRange (fp.nearRoot O D S) → t = fp.nearRoot O D S) ∧
      (¬ fp.inRange (fp.nearRoot O D S) → t = fp.farRoot O D S) ∧
      fp.inRange t ∧ 0 < fp.discr O D S := by
  obtain ⟨hd, hr⟩ := (Fpu.didHit_iff_computed fp O D S).mp hhit
  by_cases h1 : fp.inRange (fp.nearRoot O D S)
  · exact ⟨_, (Fpu.hitPoint_computed fp O D S).1 h1, fun _ => rfl, fun h => absurd h1 h, h1, hd⟩
  · exact ⟨_, (Fpu.hitPoint_computed fp O D S).2 h1, fun h => absurd h h1, fun _ => rfl,
      hr.resolve_left h1, hd⟩

/-- C2, as amended, in IEEE arithmetic at the ray from `(0,0,-5)` along `+z`
and the unit sphere at the origin: the hit is at the smaller root. -/
theorem sphereIntersect_hitPoint_accepted_root_witness :
    ∃ t : ℚ, (ieee.sphereIntersect ⟨0, 0, -5⟩ ⟨0, 0, 1⟩ ⟨⟨0, 0, 0⟩, 1, matteWhite⟩).hitPoint =
        ieee.add ⟨0, 0, -5⟩ (ieee.scale ⟨0, 0, 1⟩ t) ∧
      (ieee.inRange (ieee.nearRoot ⟨0, 0, -5⟩ ⟨0, 0, 1⟩ ⟨⟨0, 0, 0⟩, 1, matteWhite⟩) →
        t = ieee.nearRoot ⟨0, 0, -5⟩ ⟨0, 0, 1⟩ ⟨⟨0, 0, 0⟩, 1, matteWhite⟩) ∧
      (¬ ieee.inRange (ieee.nearRoot ⟨0, 0, -5⟩ ⟨0, 0, 1⟩ ⟨⟨0, 0, 0⟩, 1, matteWhite⟩) →
        t = ieee.farRoot ⟨0, 0, -5⟩ ⟨0, 0, 1⟩ ⟨⟨0, 0, 0⟩, 1, matteWhite⟩) ∧
      ieee.inRange t ∧ 0 < ieee.discr ⟨0, 0, -5⟩ ⟨0, 0, 1⟩ ⟨⟨0, 0, 0⟩, 1, matteWhite⟩ :=
  sphereIntersect_hitPoint_accepted_root ieee ⟨0, 0, -5⟩ ⟨0, 0, 1⟩
    ⟨⟨0, 0, 0⟩, 1, matteWhite⟩ (by decide!) (by decide!)

/-- C2 fails as stated, in IEEE arithmetic: for the ray from
`(1.7146747, -1.6, 21.03051)` along `-z` and the sphere of radius `2` about
`(0, -1.6, 20)` (all `float`s) the computed smaller root `2097/2097152` is
below `MIN_RAY_DIST` and is rejected, a hit is reported, and the hit point is
taken at the larger root `4320175/2097152`, about `2.06`; yet the equation
`|O + tD - C|² = r²` has a real solution `u` with `0.00100001 ≤ u < 0.0011`, in
`[MIN_RAY_DIST, MAX_RAY_DIST]` and smaller. -/
theorem sphereIntersect_smallest_root_counterexample :
    (ieee.sphereIntersect ⟨7191867 / 4194304, -13421773 / 8388608, 2756511 / 131072⟩
        ⟨0, 0, -1⟩ ⟨⟨0, -13421773 / 8388608, 20⟩, 2, matteWhite⟩).didHit = true ∧
      ieee.nearRoot ⟨7191867 / 4194304, -13421773 / 8388608, 2756511 / 131072⟩
        ⟨0, 0, -1⟩ ⟨⟨0, -13421773 / 8388608, 20⟩, 2, matteWhite⟩ = 2097 / 2097152 ∧
      (2097 / 2097152 : ℚ) < ieee.MIN_RAY_DIST ∧
      ieee.farRoot ⟨7191867 / 4194304, -13421773 / 8388608, 2756511 / 131072⟩
        ⟨0, 0, -1⟩ ⟨⟨0, -13421773 / 8388608, 20⟩, 2, matteWhite⟩ = 4320175 / 2097152 ∧
      (ieee.sphereIntersect ⟨7191867 / 4194304, -13421773 / 8388608, 2756511 / 131072⟩
        ⟨0, 0, -1⟩ ⟨⟨0, -13421773 / 8388608, 20⟩, 2, matteWhite⟩).hitPoint =
        ieee.add ⟨7191867 / 4194304, -13421773 / 8388608, 2756511 / 131072⟩
          (ieee.scale ⟨0, 0, -1⟩ (4320175 / 2097152)) ∧
      ∃ u : ℝ, 100001 / 100000000 ≤ u ∧ u < 11 / 10000 ∧
        onSphere (⟨7191867 / 4194304, -13421773 / 8388608, 2756511 / 131072⟩ : vec3 ℝ)
          ⟨0, 0, -1⟩ ⟨⟨0, -13421773 / 8388608, 20⟩, 2, matteWhite⟩ u := by
  have hnear : ieee.nearRoot ⟨7191867 / 4194304, -13421773 / 8388608, 2756511 / 131072⟩
      ⟨0, 0, -1⟩ ⟨⟨0, -13421773 / 8388608, 20⟩, 2, matteWhite⟩ = 2097 / 2097152 := by
    decide!
  have hfar : ieee.farRoot ⟨7191867 / 4194304, -13421773 / 8388608, 2756511 / 131072⟩
      ⟨0, 0, -1⟩ ⟨⟨0, -13421773 / 8388608, 20⟩, 2, matteWhite⟩ = 4320175 / 2097152 := by
    decide!
  have hmin : (2097 / 2097152 : ℚ) < ieee.MIN_RAY_DIST := by decide!
  refine ⟨by decide!, hnear, hmin, hfar, ?_, ?_⟩
  · rw [← hfar]
    refine (Fpu.hitPoint_computed ieee _ _ _).2 ?_
    rw [hnear]
    exact fun h => absurd h.1 (not_le.mpr hmin)
  · refine ⟨135071 / 131072 - Real.sqrt (18645793231975 / 17592186044416), ?_, ?_, ?_⟩
    · have h : Real.sqrt (18645793231975 / 17592186044416) ≤ 135071 / 131072 - 100001 / 100000000 :=
        Real.sqrt_le_iff.mpr ⟨by norm_num, by norm_num⟩
      linarith
    · have h : (135071 / 131072 - 11 / 10000 : ℝ) <
          Real.sqrt (18645793231975 / 17592186044416) :=
        Real.lt_sqrt_of_sq_lt (by norm_num)
      linarith
    · have h := Real.mul_self_sqrt
        (show (0 : ℝ) ≤ 18645793231975 / 17592186044416 by norm_num)
      simp only [onSphere, dot, vec3.add_def, vec3.sub_def, vec3.scale_def]
      ring_nf
      ring_nf at h
      linarith

end MachineIntersector

/-! The integrator -/

section Integrator

variable {F : Type} [LinearOrderedField F]

theorem closestStep_eq (M : Libm F) (O D : vec3 F) (acc : Closest F) (s : Sphere F) :
    closestStep M O D acc s =
      if (sphereIntersect M O D s).didHit = true ∧ hitDist M O D s < acc.closestHit ∧
          hitDist M O D s > MIN_RAY_DIST then
        ⟨hitDist M O D s, sphereIntersect M O D s⟩
      else acc := rfl

theorem findClosest_snoc (M : Libm F) (O D : vec3 F) (l : List (Sphere F)) (x : Sphere F) :
    findClosest M O D (l ++ [x]) = closestStep M O D (findClosest M O D l) x := by
  simp [findClosest, List.foldl_append]

/-- What the inner loop leaves in `closestHit` and `hitInfo`: either no sphere
is a candidate and both are untouched, or they come from a candidate that is
strictly nearer than every candidate before it in the list and at least as
near as every candidate after it. -/
theorem findClosest_spec (M : Libm F) (O D : vec3 F) (ss : List (Sphere F)) :
    ((∀ s ∈ ss, ¬ qualifies M O D s) ∧ findClosest M O D ss = ⟨MAX_RAY_DIST, HitInfo.init⟩) ∨
    (∃ pre s post, ss = pre ++ s :: post ∧ qualifies M O D s ∧
      findClosest M O D ss = ⟨hitDist M O D s, sphereIntersect M O D s⟩ ∧
      (∀ p ∈ pre, qualifies M O D p → hitDist M O D s < hitDist M O D p) ∧
      (∀ q ∈ post, qualifies M O D q → hitDist M O D s ≤ hitDist M O D q)) := by
  induction ss using List.reverseRecOn with
  | nil =>
    left
    exact ⟨fun s hs => absurd hs (List.not_mem_nil s), rfl⟩
  | append_singleton l x ih =>
    rw [findClosest_snoc, closestStep_eq]
    rcases ih with ⟨hnone, heq⟩ | ⟨pre, s, post, hl, hq, heq, hpre, hpost⟩
    · rw [heq]
      by_cases hx : qualifies M O D x
      · right
        refine ⟨l, x, [], rfl, hx, ?_, ?_, fun q hq => absurd hq (List.not_mem_nil q)⟩
        · rw [if_pos ⟨hx.1, hx.2.2, hx.2.1⟩]
        · intro p hp hqp
          exact absurd hqp (hnone p hp)
      · left
        constructor
        · intro s hs
          rcases List.mem_append.mp hs with h | h
          · exact hnone s h
          · rw [List.mem_singleton] at h
            rw [h]
            exact hx
        · rw [if_neg]
          rintro ⟨h1, h2, h3⟩
          exact hx ⟨h1, h3, h2⟩
    · rw [heq]
      by_cases hc : (sphereIntersect M O D x).didHit = true ∧
          hitDist M O D x < hitDist M O D s ∧ hitDist M O D x > MIN_RAY_DIST
      · rw [if_pos hc]
        right
        refine ⟨l, x, [], rfl, ⟨hc.1, hc.2.2, hc.2.1.trans hq.2.2⟩, rfl, ?_,
          fun q hq => absurd hq (List.not_mem_nil q)⟩
        intro p hp hqp
        rw [hl] at hp
        rcases List.mem_append.mp hp with h | h
        · exact hc.2.1.trans (hpre p h hqp)
        · rcases List.mem_cons.mp h with h | h
          · rw [h]
            exact hc.2.1
          · exact hc.2.1.trans_le (hpost p h hqp)
      · rw [if_neg hc]
        right
        refine ⟨pre, s, post ++ [x], by rw [hl, List.append_assoc, List.cons_append],
          hq, rfl, hpre, ?_⟩
        intro q hq1 hqq
        rcases List.mem_append.mp hq1 with h | h
        · exact hpost q h hqq
        · rw [List.mem_singleton] at h
          rw [h] at hqq ⊢
          by_contra hlt
          exact hc ⟨hqq.1, not_le.mp hlt, hqq.2.1⟩

/-- The loop exit test `closestHit == MAX_RAY_DIST` holds exactly when no
sphere is a candidate. -/
theorem closestHit_eq_max_iff (M : Libm F) (O D : vec3 F) (ss : List (Sphere F)) :
    (findClosest M O D ss).closestHit = MAX_RAY_DIST ↔ ∀ s ∈ ss, ¬ qualifies M O D s := by
  rcases findClosest_spec M O D ss with ⟨hnone, heq⟩ | ⟨pre, s, post, hl, hq, heq, _, _⟩
  · rw [heq]
    exact ⟨fun _ => hnone, fun _ => rfl⟩
  · rw [heq]
    constructor
    · intro h
      exact absurd h hq.2.2.ne
    · intro h
      exact absurd hq (h s (by rw [hl]; exact List.mem_append_right _ (List.mem_cons_self _ _)))

/-- When the loop found something, the recorded hit is the intersection with a
sphere of the list. -/
theorem findClosest_hit_mem (M : Libm F) (O D : vec3 F) (ss : List (Sphere F))
    (h : (findClosest M O D ss).closestHit ≠ MAX_RAY_DIST) :
    ∃ s ∈ ss, (findClosest M O D ss).hitInfo = sphereIntersect M O D s := by
  rcases findClosest_spec M O D ss with ⟨_, heq⟩ | ⟨pre, s, post, hl, _, heq, _, _⟩
  · rw [heq] at h
    exact absurd rfl h
  · refine ⟨s, ?_, by rw [heq]⟩
    rw [hl]
    exact List.mem_append_right _ (List.mem_cons_self _ _)

/-- The sky branch of the loop body. -/
theorem bounce_miss (M : Libm F) (rr : Bool) (ss : List (Sphere F)) (sky : vec3 F)
    (st : PathState F)
    (h : (findClosest M st.rayOrigin st.rayDir ss).closestHit = MAX_RAY_DIST) :
    bounce M rr ss sky st = Bounce.returned (st.col + sky * st.throughput) st.rng := by
  unfold bounce
  simp only [if_pos h]

/-- The colour after a pass that found a hit, whichever way the pass ends. -/
theorem bounce_hit_col (M : Libm F) (rr : Bool) (ss : List (Sphere F)) (sky : vec3 F)
    (st : PathState F)
    (h : (findClosest M st.rayOrigin st.rayDir ss).closestHit ≠ MAX_RAY_DIST) :
    (∀ col g, bounce M rr ss sky st = Bounce.returned col g →
        col = st.col +
          (findClosest M st.rayOrigin st.rayDir ss).hitInfo.mat.emissive * st.throughput) ∧
      (∀ st1, bounce M rr ss sky st = Bounce.next st1 →
        st1.col = st.col +
          (findClosest M st.rayOrigin st.rayDir ss).hitInfo.mat.emissive * st.throughput) := by
  unfold bounce
  simp only [if_neg h]
  constructor
  · intro col g hb
    split_ifs at hb <;> simp only [Bounce.returned.injEq, reduceCtorEq] at hb <;>
      exact hb.1.symm
  · intro st1 hb
    split_ifs at hb <;> simp only [Bounce.next.injEq, reduceCtorEq] at hb <;> rw [← hb]

/-- With Russian roulette off, a pass that found a hit goes on from the hit
point, with the throughput multiplied by the specular or the diffuse albedo of
the hit, after three draws. -/
theorem bounce_hit_false (M : Libm F) (ss : List (Sphere F)) (sky : vec3 F)
    (st : PathState F)
    (h : (findClosest M st.rayOrigin st.rayDir ss).closestHit ≠ MAX_RAY_DIST) :
    ∃ st1, bounce M false ss sky st = Bounce.next st1 ∧
      st1.rayOrigin = (findClosest M st.rayOrigin st.rayDir ss).hitInfo.hitPoint ∧
      (st1.throughput = st.throughput *
          (findClosest M st.rayOrigin st.rayDir ss).hitInfo.mat.specular ∨
        st1.throughput = st.throughput *
          (findClosest M st.rayOrigin st.rayDir ss).hitInfo.mat.diffuse) ∧
      st1.rng.pos = st.rng.pos + 3 := by
  unfold bounce
  simp only [if_neg h]
  refine ⟨_, rfl, rfl, ?_, rfl⟩
  by_cases hs : ((randFloat st.rng : F × Rng)).1 <
      (findClosest M st.rayOrigin st.rayDir ss).hitInfo.mat.percentSpec
  · left
    simp [hs]
  · right
    simp [hs]

/-- With Russian roulette off the only `return` inside the loop is the sky one. -/
theorem bounce_false_next_iff (M : Libm F) (ss : List (Sphere F)) (sky : vec3 F)
    (st : PathState F) :
    (∃ st1, bounce M false ss sky st = Bounce.next st1) ↔
      (findClosest M st.rayOrigin st.rayDir ss).closestHit ≠ MAX_RAY_DIST := by
  constructor
  · rintro ⟨st1, h1⟩ h
    rw [bounce_miss M false ss sky st h] at h1
    exact Bounce.noConfusion h1
  · intro h
    obtain ⟨st1, h1, _⟩ := bounce_hit_false M ss sky st h
    exact ⟨st1, h1⟩

/-- The loop, continued from a state it reaches. -/
theorem traceLoop_stateAfter (M : Libm F) (rr : Bool) (ss : List (Sphere F)) (sky : vec3 F)
    (k : Nat) : ∀ (n : Nat) (st st1 : PathState F),
      stateAfter M rr ss sky n st = some st1 →
      traceLoop M rr ss sky (n + k) st = traceLoop M rr ss sky k st1 := by
  intro n
  induction n with
  | zero =>
    intro st st1 h
    simp only [stateAfter, Option.some.injEq] at h
    rw [h, Nat.zero_add]
  | succ n ih =>
    intro st st1 h
    rw [Nat.succ_add]
    simp only [stateAfter] at h
    simp only [traceLoop]
    cases hb : bounce M rr ss sky st with
    | returned col g => rw [hb] at h; exact Option.noConfusion h
    | next st2 =>
      rw [hb] at h
      exact ih st2 st1 h

theorem not_qualifies_of_discr {M : Libm F} {O D : vec3 F} {s : Sphere F}
    (h : discr O D s ≤ 0) : ¬ qualifies M O D s :=
  fun hq => absurd ((didHit_iff M O D s).mp hq.1).1 (not_lt.mpr h)

theorem not_qualifies_of_roots {M : Libm F} {O D : vec3 F} {s : Sphere F}
    (h1 : ¬ inRange (nearRoot M O D s)) (h2 : ¬ inRange (farRoot M O D s)) :
    ¬ qualifies M O D s := by
  intro hq
  rcases ((didHit_iff M O D s).mp hq.1).2 with h | h
  · exact h1 h
  · exact h2 h

/-- The ray from the camera position straight backwards, `(0,0,0)` towards
`(0,0,-1)`, meets no sphere of the fixed scene. -/
theorem back_ray_misses {M : Libm F} (hM : SqrtSpec M) :
    ∀ s ∈ (spheres : List (Sphere F)),
      ¬ qualifies M (⟨0, 0, 0⟩ : vec3 F) ⟨0, 0, -1⟩ s := by
  have ha : dot (⟨0, 0, -1⟩ : vec3 F) ⟨0, 0, -1⟩ = 1 := by norm_num [dot]
  intro s hs
  simp only [spheres, List.mem_cons, List.mem_singleton, List.not_mem_nil, or_false] at hs
  rcases hs with rfl | rfl | rfl | rfl | rfl | rfl | rfl | rfl | rfl | rfl
  · exact not_qualifies_of_discr (by norm_num [discr, halfB, dot, vec3.sub_def])
  · exact not_qualifies_of_discr (by norm_num [discr, halfB, dot, vec3.sub_def])
  · exact not_qualifies_of_discr (by norm_num [discr, halfB, dot, vec3.sub_def])
  · exact not_qualifies_of_discr (by norm_num [discr, halfB, dot, vec3.sub_def])
  · have hd : discr (⟨0, 0, 0⟩ : vec3 F) ⟨0, 0, -1⟩ ⟨⟨0, 0, 136⟩, 100, matteWhite⟩
        = 100 * 100 := by norm_num [discr, halfB, dot, vec3.sub_def]
    have hb : halfB (⟨0, 0, 0⟩ : vec3 F) ⟨0, 0, -1⟩ ⟨⟨0, 0, 136⟩, 100, matteWhite⟩
        = 136 := by norm_num [halfB, dot, vec3.sub_def]
    apply not_qualifies_of_roots
    · unfold nearRoot
      rw [hd, hb, ha, hM.sqrt_mul_self (by norm_num)]
      exact not_inRange_of_lt (by norm_num)
    · unfold farRoot
      rw [hd, hb, ha, hM.sqrt_mul_self (by norm_num)]
      exact not_inRange_of_lt (by norm_num)
  · exact not_qualifies_of_discr (by norm_num [discr, halfB, dot, vec3.sub_def])
  · exact not_qualifies_of_discr (by norm_num [discr, halfB, dot, vec3.sub_def])
  · exact not_qualifies_of_discr (by norm_num [discr, halfB, dot, vec3.sub_def])
  · have hd : discr (⟨0, 0, 0⟩ : vec3 F) ⟨0, 0, -1⟩ ⟨⟨0, -16 / 10, 20⟩, 2, metalMagenta⟩
        = 6 / 5 * (6 / 5) := by norm_num [discr, halfB, dot, vec3.sub_def]
    have hb : halfB (⟨0, 0, 0⟩ : vec3 F) ⟨0, 0, -1⟩ ⟨⟨0, -16 / 10, 20⟩, 2, metalMagenta⟩
        = 20 := by norm_num [halfB, dot, vec3.sub_def]
    apply not_qualifies_of_roots
    · unfold nearRoot
      rw [hd, hb, ha, hM.sqrt_mul_self (by norm_num)]
      exact not_inRange_of_lt (by norm_num)
    · unfold farRoot
      rw [hd, hb, ha, hM.sqrt_mul_self (by norm_num)]
      exact not_inRange_of_lt (by norm_num)
  · exact not_qualifies_of_discr (by norm_num [discr, halfB, dot, vec3.sub_def])

/-- C7: at a bounce of the integrator (state `st`, any sphere list, in
particular the fixed scene), if no sphere is a candidate (a reported hit with
distance strictly between `MIN_RAY_DIST` and `MAX_RAY_DIST`) the bounce is
treated as a miss; otherwise the inner loop selects a candidate `s` whose
distance is strictly smaller than that of every candidate earlier in the list
and at most that of every candidate later in the list (so the earliest of the
nearest wins), and the path goes on from the hit point on `s`. -/
theorem scene_selects_nearest_candidate (M : Libm F) (rr : Bool) (ss : List (Sphere F))
    (sky : vec3 F) (st : PathState F) :
    ((∀ s ∈ ss, ¬ qualifies M st.rayOrigin st.rayDir s) →
        bounce M rr ss sky st = Bounce.returned (st.col + sky * st.throughput) st.rng) ∧
      ((∃ s ∈ ss, qualifies M st.rayOrigin st.rayDir s) →
        ∃ pre s post, ss = pre ++ s :: post ∧ qualifies M st.rayOrigin st.rayDir s ∧
          findClosest M st.rayOrigin st.rayDir ss =
            ⟨hitDist M st.rayOrigin st.rayDir s, sphereIntersect M st.rayOrigin st.rayDir s⟩ ∧
          (∀ p ∈ pre, qualifies M st.rayOrigin st.rayDir p →
            hitDist M st.rayOrigin st.rayDir s < hitDist M st.rayOrigin st.rayDir p) ∧
          (∀ q ∈ post, qualifies M st.rayOrigin st.rayDir q →
            hitDist M st.rayOrigin st.rayDir s ≤ hitDist M st.rayOrigin st.rayDir q) ∧
          ∃ st1, bounce M false ss sky st = Bounce.next st1 ∧
            st1.rayOrigin = (sphereIntersect M st.rayOrigin st.rayDir s).hitPoint) := by
  constructor
  · intro hnone
    exact bounce_miss M rr ss sky st ((closestHit_eq_max_iff M _ _ ss).mpr hnone)
  · rintro ⟨s0, hs0, hq0⟩
    rcases findClosest_spec M st.rayOrigin st.rayDir ss with
      ⟨hnone, _⟩ | ⟨pre, s, post, hl, hq, heq, hpre, hpost⟩
    · exact absurd hq0 (hnone s0 hs0)
    · have hne : (findClosest M st.rayOrigin st.rayDir ss).closestHit ≠ MAX_RAY_DIST := by
        rw [heq]
        exact hq.2.2.ne
      obtain ⟨st1, h1, h2, _⟩ := bounce_hit_false M ss sky st hne
      refine ⟨pre, s, post, hl, hq, heq, hpre, hpost, st1, h1, ?_⟩
      rw [h2, heq]

/-- The value of `scene` on a primary ray once the first pass takes the sky
branch. -/
theorem scene_of_miss (M : Libm F) (O D : vec3 F) (g : Rng)
    (h : ∀ s ∈ (spheres : List (Sphere F)), ¬ qualifies M O D s) :
    scene M O D g = (⟨1 / 2, 8 / 10, 9 / 10⟩, g) := by
  have hb := bounce_miss M ENABLE_RUSSIAN_ROULETTE spheres skyboxColor (initState O D g)
    ((closestHit_eq_max_iff M O D spheres).mpr h)
  unfold scene trace
  simp only [traceLoop, hb]
  simp [initState, skyboxColor, vec3.splat, vec3.add_def, vec3.mul_def]

/-- C8: when at a bounce no sphere is a candidate, the loop body returns
`col + skyboxColor * throughput` with the generator untouched, and so does the
integrator whatever the number of passes left; for a primary ray that meets no
sphere of the fixed scene, such as `(0,0,0)` towards `(0,0,-1)`, `scene`
returns the sky colour `(0.5, 0.8, 0.9)` and draws nothing, whatever the
random stream. -/
theorem scene_miss_returns_sky (M : Libm F) (hM : SqrtSpec M) :
    (∀ (rr : Bool) (ss : List (Sphere F)) (sky : vec3 F) (st : PathState F) (n : Nat),
        (∀ s ∈ ss, ¬ qualifies M st.rayOrigin st.rayDir s) →
        bounce M rr ss sky st = Bounce.returned (st.col + sky * st.throughput) st.rng ∧
          traceLoop M rr ss sky (n + 1) st = (st.col + sky * st.throughput, st.rng)) ∧
      (∀ (O D : vec3 F) (g : Rng),
        (∀ s ∈ (spheres : List (Sphere F)), ¬ qualifies M O D s) →
        scene M O D g = (⟨1 / 2, 8 / 10, 9 / 10⟩, g)) ∧
      (∀ g : Rng, scene M (⟨0, 0, 0⟩ : vec3 F) ⟨0, 0, -1⟩ g = (⟨1 / 2, 8 / 10, 9 / 10⟩, g)) := by
  refine ⟨?_, fun O D g h => scene_of_miss M O D g h,
    fun g => scene_of_miss M _ _ g (back_ray_misses hM)⟩
  intro rr ss sky st n hnone
  have hb := bounce_miss M rr ss sky st ((closestHit_eq_max_iff M _ _ ss).mpr hnone)
  refine ⟨hb, ?_⟩
  simp only [traceLoop, hb]

/-- C8 over the reals, for the ray `(0,0,0)` towards `(0,0,-1)` and the stream
`rand() = 0, 1, 2, …` with `RAND_MAX = 32767`: the sky colour, no draw. -/
theorem scene_miss_returns_sky_witness :
    scene (Libm.mk Real.sqrt Real.cos Real.sin Real.rpow) (⟨0, 0, 0⟩ : vec3 ℝ) ⟨0, 0, -1⟩
        ⟨32767, fun k => k, 0⟩ =
      (⟨1 / 2, 8 / 10, 9 / 10⟩, ⟨32767, fun k => k, 0⟩) :=
  (scene_miss_returns_sky _ real_sqrtSpec).2.2 ⟨32767, fun k => k, 0⟩

theorem zero_add_zero_mul (v : vec3 F) : (⟨0, 0, 0⟩ : vec3 F) + ⟨0, 0, 0⟩ * v = ⟨0, 0, 0⟩ := by
  simp [vec3.add_def, vec3.mul_def]

/-- Without emission and without sky light the accumulated colour stays zero. -/
theorem traceLoop_dark (M : Libm F) (rr : Bool) (ss : List (Sphere F))
    (hE : ∀ s ∈ ss, s.mat.emissive = ⟨0, 0, 0⟩) :
    ∀ (n : Nat) (st : PathState F), st.col = ⟨0, 0, 0⟩ →
      (traceLoop M rr ss ⟨0, 0, 0⟩ n st).1 = ⟨0, 0, 0⟩ := by
  intro n
  induction n with
  | zero =>
    intro st h
    simpa only [traceLoop] using h
  | succ n ih =>
    intro st h
    simp only [traceLoop]
    by_cases hmax : (findClosest M st.rayOrigin st.rayDir ss).closestHit = MAX_RAY_DIST
    · rw [bounce_miss M rr ss _ st hmax, h]
      exact zero_add_zero_mul _
    · obtain ⟨s, hs, hinfo⟩ := findClosest_hit_mem M _ _ ss hmax
      have he : (findClosest M st.rayOrigin st.rayDir ss).hitInfo.mat.emissive = ⟨0, 0, 0⟩ := by
        rw [hinfo]
        exact hE s hs
      have hcol := bounce_hit_col M rr ss ⟨0, 0, 0⟩ st hmax
      rw [he, h, zero_add_zero_mul] at hcol
      cases hb : bounce M rr ss ⟨0, 0, 0⟩ st with
      | returned col g => exact hcol.1 col g hb
      | next st1 => exact ih st1 (hcol.2 st1 hb)

/-- C9: for the integrator over an arbitrary sphere list and sky colour, if
every sphere has emissive `(0,0,0)` and the sky colour is `(0,0,0)`, `trace`
returns `(0,0,0)` for every ray and random stream, for every bounce cap and
with Russian roulette on or off. -/
theorem trace_dark_scene (M : Libm F) (rr : Bool) (nBounces : Nat) (ss : List (Sphere F))
    (O D : vec3 F) (g : Rng) (hE : ∀ s ∈ ss, s.mat.emissive = ⟨0, 0, 0⟩) :
    (trace M rr nBounces ss ⟨0, 0, 0⟩ O D g).1 = ⟨0, 0, 0⟩ :=
  traceLoop_dark M rr ss hE (nBounces + 1) (initState O D g) rfl

/-- C9 over the reals for the scene made of the red wall, the back wall and
the magenta ball of the fixed scene, none of which emits, the ray from
`(0,0,0)` along `+z`, and the stream `rand() = 0, 1, 2, …`. -/
theorem trace_dark_scene_witness :
    (trace (Libm.mk Real.sqrt Real.cos Real.sin Real.rpow) false 8
        [⟨⟨-108, 0, 30⟩, 100, matteRed⟩, ⟨⟨0, 0, 136⟩, 100, matteWhite⟩,
          ⟨⟨0, -16 / 10, 20⟩, 2, metalMagenta⟩]
        ⟨0, 0, 0⟩ (⟨0, 0, 0⟩ : vec3 ℝ) ⟨0, 0, 1⟩ ⟨32767, fun k => k, 0⟩).1 = ⟨0, 0, 0⟩ :=
  trace_dark_scene _ false 8 _ _ _ _ (by
    intro s hs
    simp only [List.mem_cons, List.mem_singleton, List.not_mem_nil, or_false] at hs
    rcases hs with rfl | rfl | rfl <;> rfl)

theorem inUnitBox_mul {a b : vec3 F} (ha : inUnitBox a) (hb : inUnitBox b) :
    inUnitBox (a * b) := by
  obtain ⟨⟨a1, a2⟩, ⟨a3, a4⟩, a5, a6⟩ := ha
  obtain ⟨⟨b1, b2⟩, ⟨b3, b4⟩, b5, b6⟩ := hb
  rw [vec3.mul_def]
  refine ⟨⟨mul_nonneg a1 b1, ?_⟩, ⟨mul_nonneg a3 b3, ?_⟩, mul_nonneg a5 b5, ?_⟩
  · simpa using mul_le_mul a2 b2 b1 zero_le_one
  · simpa using mul_le_mul a4 b4 b3 zero_le_one
  · simpa using mul_le_mul a6 b6 b5 zero_le_one

/-- Every diffuse and specular albedo of the fixed scene lies in `[0,1]`. -/
theorem spheres_albedo :
    ∀ s ∈ (spheres : List (Sphere F)), inUnitBox s.mat.diffuse ∧ inUnitBox s.mat.specular := by
  intro s hs
  simp only [spheres, List.mem_cons, List.mem_singleton, List.not_mem_nil, or_false] at hs
  rcases hs with rfl | rfl | rfl | rfl | rfl | rfl | rfl | rfl | rfl | rfl <;>
    norm_num [inUnitBox, lightSource, matteRed, matteGreen, matteWhite, metalCyan,
      metalMagenta, metalYellow, vec3.splat]

/-- With Russian roulette off, a pass that goes on multiplies the throughput by
the specular or the diffuse albedo of a sphere of the list. -/
theorem bounce_false_albedo (M : Libm F) (ss : List (Sphere F)) (sky : vec3 F)
    (st st1 : PathState F) (h : bounce M false ss sky st = Bounce.next st1) :
    ∃ s ∈ ss, st1.throughput = st.throughput * s.mat.specular ∨
      st1.throughput = st.throughput * s.mat.diffuse := by
  have hne := (bounce_false_next_iff M ss sky st).mp ⟨st1, h⟩
  obtain ⟨st2, h2, _, hthr, _⟩ := bounce_hit_false M ss sky st hne
  obtain ⟨s, hs, hinfo⟩ := findClosest_hit_mem M _ _ ss hne
  rw [h2] at h
  have hst : st2 = st1 := Bounce.next.inj h
  rw [hinfo, hst] at hthr
  exact ⟨s, hs, hthr⟩

/-- The unit box is kept by every pass over the fixed scene. -/
theorem stateAfter_box (M : Libm F) (sky : vec3 F) :
    ∀ (n : Nat) (st st1 : PathState F), inUnitBox st.throughput →
      stateAfter M false spheres sky n st = some st1 → inUnitBox st1.throughput := by
  intro n
  induction n with
  | zero =>
    intro st st1 hbox h
    simp only [stateAfter, Option.some.injEq] at h
    rw [← h]
    exact hbox
  | succ n ih =>
    intro st st1 hbox h
    simp only [stateAfter] at h
    cases hb : bounce M false spheres sky st with
    | returned col g => rw [hb] at h; exact Option.noConfusion h
    | next st2 =>
      rw [hb] at h
      obtain ⟨s, hs, hthr⟩ := bounce_false_albedo M spheres sky st st2 hb
      have hal := spheres_albedo s hs
      apply ih st2 st1 _ h
      rcases hthr with h1 | h1
      · rw [h1]; exact inUnitBox_mul hbox hal.2
      · rw [h1]; exact inUnitBox_mul hbox hal.1

theorem initState_box (O D : vec3 F) (g : Rng) : inUnitBox (initState O D g).throughput := by
  norm_num [inUnitBox, initState, vec3.splat]

/-- The ray from `(0,0,0)` straight up meets the light `spheres[1]` at
distance `8`. -/
theorem up_ray_qualifies {M : Libm F} (hM : SqrtSpec M) :
    qualifies M (⟨0, 0, 0⟩ : vec3 F) ⟨0, 1, 0⟩ ⟨⟨0, 16, 6⟩, 10, lightSource⟩ := by
  have ha : dot (⟨0, 1, 0⟩ : vec3 F) ⟨0, 1, 0⟩ = 1 := by norm_num [dot]
  have hd : discr (⟨0, 0, 0⟩ : vec3 F) ⟨0, 1, 0⟩ ⟨⟨0, 16, 6⟩, 10, lightSource⟩ = 8 * 8 := by
    norm_num [discr, halfB, dot, vec3.sub_def]
  have hb : halfB (⟨0, 0, 0⟩ : vec3 F) ⟨0, 1, 0⟩ ⟨⟨0, 16, 6⟩, 10, lightSource⟩ = -16 := by
    norm_num [halfB, dot, vec3.sub_def]
  have hn : nearRoot M (⟨0, 0, 0⟩ : vec3 F) ⟨0, 1, 0⟩ ⟨⟨0, 16, 6⟩, 10, lightSource⟩ = 8 := by
    unfold nearRoot
    rw [hd, hb, ha, hM.sqrt_mul_self (by norm_num)]
    norm_num
  have hin : inRange (nearRoot M (⟨0, 0, 0⟩ : vec3 F) ⟨0, 1, 0⟩
      ⟨⟨0, 16, 6⟩, 10, lightSource⟩) := by
    rw [hn]
    exact inRange_num (by norm_num) (by norm_num)
  have hdist : hitDist M (⟨0, 0, 0⟩ : vec3 F) ⟨0, 1, 0⟩ ⟨⟨0, 16, 6⟩, 10, lightSource⟩ = 8 := by
    unfold hitDist
    rw [(hitPoint_eq M _ _ _).1 hin, hn, ray_dist_unit hM _ ha (by norm_num)]
  refine ⟨?_, ?_, ?_⟩
  · rw [didHit_iff, hd]
    exact ⟨by norm_num, Or.inl hin⟩
  · rw [hdist]; norm_num [MIN_RAY_DIST]
  · rw [hdist]; norm_num [MAX_RAY_DIST]

/-- The primary ray straight up completes a first pass of the loop. -/
theorem up_ray_first_pass {M : Libm F} (hM : SqrtSpec M) (g : Rng) :
    ∃ st, stateAfter M false spheres skyboxColor 1
      (initState (⟨0, 0, 0⟩ : vec3 F) ⟨0, 1, 0⟩ g) = some st := by
  have hne : (findClosest M (initState (⟨0, 0, 0⟩ : vec3 F) ⟨0, 1, 0⟩ g).rayOrigin
      (initState (⟨0, 0, 0⟩ : vec3 F) ⟨0, 1, 0⟩ g).rayDir spheres).closestHit
      ≠ MAX_RAY_DIST := by
    intro h
    refine (closestHit_eq_max_iff M _ _ _).mp h _ ?_ (up_ray_qualifies hM)
    simp [spheres]
  obtain ⟨st1, h1, _⟩ := bounce_hit_false M spheres skyboxColor _ hne
  exact ⟨st1, by simp only [stateAfter, h1]⟩

/-- C10: with Russian roulette disabled, for the fixed 10-sphere scene, every
ray and every random stream, the throughput of the path state after any number
of completed bounces has its three components in `[0,1]`: it starts at
`(1,1,1)`, and a further bounce multiplies it component-wise by the diffuse or
the specular albedo of a scene sphere, both of which lie in `[0,1]`. -/
theorem scene_throughput_in_unit_box (M : Libm F) (O D : vec3 F) (g : Rng) (n : Nat)
    (st : PathState F)
    (h : stateAfter M false spheres skyboxColor n (initState O D g) = some st) :
    inUnitBox st.throughput ∧
      (initState O D g).throughput = ⟨1, 1, 1⟩ ∧
      ∀ st1, bounce M false spheres skyboxColor st = Bounce.next st1 →
        ∃ s ∈ (spheres : List (Sphere F)),
          inUnitBox s.mat.diffuse ∧ inUnitBox s.mat.specular ∧
          (st1.throughput = st.throughput * s.mat.specular ∨
            st1.throughput = st.throughput * s.mat.diffuse) := by
  refine ⟨stateAfter_box M skyboxColor n _ st (initState_box O D g) h, rfl, ?_⟩
  intro st1 hb
  obtain ⟨s, hs, hthr⟩ := bounce_false_albedo M spheres skyboxColor st st1 hb
  exact ⟨s, hs, (spheres_albedo s hs).1, (spheres_albedo s hs).2, hthr⟩

/-- C10 over the reals after the first bounce of the primary ray straight up,
with the stream `rand() = 0, 1, 2, …`. -/
theorem scene_throughput_in_unit_box_witness :
    ∃ st : PathState ℝ,
      stateAfter (Libm.mk Real.sqrt Real.cos Real.sin Real.rpow) false spheres skyboxColor 1
        (initState (⟨0, 0, 0⟩ : vec3 ℝ) ⟨0, 1, 0⟩ ⟨32767, fun k => k, 0⟩) = some st ∧
      inUnitBox st.throughput := by
  obtain ⟨st, hst⟩ := up_ray_first_pass real_sqrtSpec ⟨32767, fun k => k, 0⟩
  exact ⟨st, hst, (scene_throughput_in_unit_box _ _ _ _ 1 st hst).1⟩

end Integrator

/-! The random source -/

section Randomness

variable {F : Type} [LinearOrderedField F]

end Randomness

section MachineRandomness

variable {F : Type} [LinearOrderedField F]

/-- C19, as amended: for every value `n` that `rand()` can return
(`0 ≤ n ≤ RAND_MAX`, with `RAND_MAX > 0`), the result of `randFloat`, the
`float` quotient of `float(n)` by `float(RAND_MAX)`, lies in the closed
interval `[0,1]`; it is exactly `1` when `n = RAND_MAX`, and one call of
`rand()` is consumed. -/
theorem randFloat_in_closed_unit_interval (fp : Fpu F) (hfp : fp.Sound) (g : Rng)
    (hmax : 0 < g.RAND_MAX) (hn : g.draws g.pos ≤ g.RAND_MAX) :
    0 ≤ (fp.randFloat g).1 ∧ (fp.randFloat g).1 ≤ 1 ∧
      (g.draws g.pos = g.RAND_MAX → (fp.randFloat g).1 = 1) ∧
      (fp.randFloat g).2.pos = g.pos + 1 := by
  have h1 : (1 : F) ≤ fp.f32 (g.RAND_MAX : F) := by
    have := hfp.f32_mono 1 (g.RAND_MAX : F) (by exact_mod_cast hmax)
    rwa [hfp.f32_one] at this
  have hpos : (0 : F) < fp.f32 (g.RAND_MAX : F) := lt_of_lt_of_le one_pos h1
  have hn0 : (0 : F) ≤ fp.f32 (g.draws g.pos : F) := hfp.f32_nonneg (Nat.cast_nonneg _)
  have hle : fp.f32 (g.draws g.pos : F) ≤ fp.f32 (g.RAND_MAX : F) :=
    hfp.f32_mono _ _ (by exact_mod_cast hn)
  show 0 ≤ fp.f32 (fp.f32 (g.draws g.pos : F) / fp.f32 (g.RAND_MAX : F)) ∧
    fp.f32 (fp.f32 (g.draws g.pos : F) / fp.f32 (g.RAND_MAX : F)) ≤ 1 ∧
    (g.draws g.pos = g.RAND_MAX →
      fp.f32 (fp.f32 (g.draws g.pos : F) / fp.f32 (g.RAND_MAX : F)) = 1) ∧
    g.pos + 1 = g.pos + 1
  refine ⟨hfp.f32_nonneg (div_nonneg hn0 hpos.le), ?_, ?_, rfl⟩
  · have := hfp.f32_mono _ 1 ((div_le_one hpos).mpr hle)
    rwa [hfp.f32_one] at this
  · intro h
    rw [h, div_self hpos.ne', hfp.f32_one]

/-- C19, as amended, in IEEE arithmetic for `RAND_MAX = 2^31 - 1` and the draw
`12345`. -/
theorem randFloat_in_closed_unit_interval_witness :
    0 ≤ (ieee.randFloat ⟨2147483647, fun _ => 12345, 0⟩).1 ∧
      (ieee.randFloat ⟨2147483647, fun _ => 12345, 0⟩).1 ≤ 1 ∧
      ((12345 : Nat) = 2147483647 → (ieee.randFloat ⟨2147483647, fun _ => 12345, 0⟩).1 = 1) ∧
      (ieee.randFloat ⟨2147483647, fun _ => 12345, 0⟩).2.pos = 0 + 1 :=
  randFloat_in_closed_unit_interval ieee ieee_sound ⟨2147483647, fun _ => 12345, 0⟩
    (by decide) (by decide)

/-- C19 fails as stated, in IEEE arithmetic with `RAND_MAX = 2^31 - 1`: when
`rand()` returns `RAND_MAX` itself, which it can, `randFloat` returns exactly
`1`, which is not below `1`; it does so already for `RAND_MAX - 1`, which
rounds to the same `float` `2^31`. -/
theorem randFloat_counterexample :
    (2147483647 : Nat) ≤ 2147483647 ∧
      (ieee.randFloat ⟨2147483647, fun _ => 2147483647, 0⟩).1 = 1 ∧
      ¬ ((ieee.randFloat ⟨2147483647, fun _ => 2147483647, 0⟩).1 < 1) ∧
      (ieee.randFloat ⟨2147483647, fun _ => 2147483646, 0⟩).1 = 1 := by
  decide!

end MachineRandomness

/-! The colour pipeline -/

section Colour

variable {F : Type} [LinearOrderedField F]

theorem clamp_nonneg (x : F) : 0 ≤ clamp x := by
  unfold clamp
  split_ifs with h1 h2
  · exact le_refl _
  · exact zero_le_one
  · exact not_lt.mp h1

theorem clamp_le_one (x : F) : clamp x ≤ 1 := by
  unfold clamp
  split_ifs with h1 h2
  · exact zero_le_one
  · exact le_refl _
  · exact not_lt.mp h2

theorem clamp_of_mem {x : F} (h0 : 0 ≤ x) (h1 : x ≤ 1) : clamp x = x := by
  unfold clamp
  rw [if_neg (not_lt.mpr h0), if_neg (not_lt.mpr h1)]

theorem clamp_of_nonpos {x : F} (h : x ≤ 0) : clamp x = 0 := by
  rcases h.lt_or_eq with h1 | h1
  · unfold clamp
    rw [if_pos h1]
  · rw [h1]
    exact clamp_of_mem (le_refl _) zero_le_one

theorem clamp_of_one_le {x : F} (h : 1 ≤ x) : clamp x = 1 := by
  rcases h.lt_or_eq with h1 | h1
  · unfold clamp
    rw [if_neg (not_lt.mpr (zero_le_one.trans h)), if_pos h1]
  · rw [← h1]
    exact clamp_of_mem zero_le_one (le_refl _)

theorem clamp_mono {x y : F} (h : x ≤ y) : clamp x ≤ clamp y := by
  rcases lt_or_le x 0 with hx | hx
  · rw [clamp_of_nonpos hx.le]
    exact clamp_nonneg y
  · rcases lt_or_le 1 y with hy | hy
    · rw [clamp_of_one_le hy.le]
      exact clamp_le_one x
    · rw [clamp_of_mem hx (h.trans hy), clamp_of_mem (hx.trans h) hy]
      exact h

theorem aces_denom_pos {x : F} (hx : 0 ≤ x) :
    0 < x * (x * (243 / 100) + 59 / 100) + 14 / 100 := by
  have h1 : 0 ≤ x * (x * (243 / 100) + 59 / 100) :=
    mul_nonneg hx (add_nonneg (mul_nonneg hx (by norm_num)) (by norm_num))
  linarith

/-- The scalar ACES curve is non-decreasing on the non-negative numbers. -/
theorem acesCurve_mono {x y : F} (hx : 0 ≤ x) (hxy : x ≤ y) : acesCurve x ≤ acesCurve y := by
  have hy : 0 ≤ y := hx.trans hxy
  unfold acesCurve
  rw [div_le_div_iff₀ (aces_denom_pos hx) (aces_denom_pos hy)]
  have h1 : 0 ≤ (y - x) * (x * y) := mul_nonneg (sub_nonneg.mpr hxy) (mul_nonneg hx hy)
  have h2 : 0 ≤ (y - x) * (x + y) := mul_nonneg (sub_nonneg.mpr hxy) (add_nonneg hx hy)
  have h3 : 0 ≤ y - x := sub_nonneg.mpr hxy
  nlinarith

end Colour

section ToneMap

variable {F : Type} [LinearOrderedField F]

/-- In exact arithmetic each component of `ACESFilm` is the clamped curve. -/
theorem ACESFilm_exact (sqrt : F → F) (v : vec3 F) :
    ACESFilm (Fpu.exact sqrt) v =
      ⟨clamp (acesCurve v.x), clamp (acesCurve v.y), clamp (acesCurve v.z)⟩ := by
  simp only [ACESFilm, acesCurve, vec3.clamp, vec3.splat, Fpu.div, Fpu.mul, Fpu.add, Fpu.scale,
    Fpu.exact, id]

/-- In exact arithmetic `ACESFilm` is non-decreasing on non-negative input. -/
theorem ACESFilm_exact_mono (sqrt : F → F) {x y : F} (hx : 0 ≤ x) (hxy : x ≤ y) :
    (ACESFilm (Fpu.exact sqrt) (vec3.splat x)).x ≤ (ACESFilm (Fpu.exact sqrt) (vec3.splat y)).x := by
  rw [ACESFilm_exact, ACESFilm_exact]
  exact clamp_mono (acesCurve_mono hx hxy)

end ToneMap

section Quantise

variable {F : Type} [LinearOrderedField F]

/-- The value whose integer part `toCol` returns lies in `[1/2, 511/2]`. -/
theorem toCol_arg_mem (fp : Fpu F) (hfp : fp.Sound) (h255 : fp.f32 255 = 255)
    (hhalf : fp.f64 (1 / 2) = 1 / 2) (htop : fp.f64 (511 / 2) = 511 / 2) (x : F) :
    1 / 2 ≤ fp.f64 (fp.f32 (clamp x * 255) + 1 / 2) ∧
      fp.f64 (fp.f32 (clamp x * 255) + 1 / 2) ≤ 511 / 2 := by
  have h0 := clamp_nonneg x
  have h1 := clamp_le_one x
  have ha : 0 ≤ fp.f32 (clamp x * 255) := hfp.f32_nonneg (by linarith)
  have hb : fp.f32 (clamp x * 255) ≤ 255 := by
    have := hfp.f32_mono (clamp x * 255) 255 (by linarith)
    rwa [h255] at this
  constructor
  · have := hfp.f64_mono (1 / 2) (fp.f32 (clamp x * 255) + 1 / 2) (by linarith)
    rwa [hhalf] at this
  · have := hfp.f64_mono (fp.f32 (clamp x * 255) + 1 / 2) (511 / 2) (by linarith)
    rwa [htop] at this

variable [FloorRing F]

theorem toCol_eq_floor (fp : Fpu F) (hfp : fp.Sound) (h255 : fp.f32 255 = 255)
    (hhalf : fp.f64 (1 / 2) = 1 / 2) (htop : fp.f64 (511 / 2) = 511 / 2) (x : F) :
    toCol fp x = Int.floor (fp.f64 (fp.f32 (clamp x * 255) + 1 / 2)) := by
  have h := (toCol_arg_mem fp hfp h255 hhalf htop x).1
  unfold toCol truncInt
  rw [if_pos (by linarith)]

/-- C15, as amended: for every channel value `x`, `toCol(x)` is an integer in
`0..255`, equal to `floor(p + 1/2)` where `p` is the product `clamp(x)*255`
rounded to `float` (the sum is a `double`); it is `0` for `x ≤ 0`, `255` for
`x ≥ 1`, and non-decreasing in `x`. -/
theorem toCol_quantises (fp : Fpu F) (hfp : fp.Sound) (h255 : fp.f32 255 = 255)
    (hhalf : fp.f64 (1 / 2) = 1 / 2) (htop : fp.f64 (511 / 2) = 511 / 2) (x : F) :
    (0 ≤ toCol fp x ∧ toCol fp x ≤ 255) ∧
      toCol fp x = Int.floor (fp.f64 (fp.f32 (clamp x * 255) + 1 / 2)) ∧
      (x ≤ 0 → toCol fp x = 0) ∧ (1 ≤ x → toCol fp x = 255) ∧
      ∀ y : F, x ≤ y → toCol fp x ≤ toCol fp y := by
  obtain ⟨hlo, hhi⟩ := toCol_arg_mem fp hfp h255 hhalf htop x
  refine ⟨⟨?_, ?_⟩, toCol_eq_floor fp hfp h255 hhalf htop x, ?_, ?_, fun y h => ?_⟩
  · rw [toCol_eq_floor fp hfp h255 hhalf htop, Int.floor_nonneg]
    linarith
  · rw [toCol_eq_floor fp hfp h255 hhalf htop]
    apply Int.lt_add_one_iff.mp
    rw [Int.floor_lt]
    push_cast
    linarith
  · intro hx
    rw [toCol_eq_floor fp hfp h255 hhalf htop, clamp_of_nonpos hx, zero_mul, hfp.f32_zero,
      zero_add, hhalf, Int.floor_eq_iff]
    norm_num
  · intro hx
    rw [toCol_eq_floor fp hfp h255 hhalf htop, clamp_of_one_le hx, one_mul, h255,
      show (255 : F) + 1 / 2 = 511 / 2 by norm_num, htop, Int.floor_eq_iff]
    norm_num
  · rw [toCol_eq_floor fp hfp h255 hhalf htop, toCol_eq_floor fp hfp h255 hhalf htop]
    apply Int.floor_mono
    apply hfp.f64_mono
    have := hfp.f32_mono (clamp x * 255) (clamp y * 255)
      (mul_le_mul_of_nonneg_right (clamp_mono h) (by norm_num))
    linarith

/-- C15, as amended, in IEEE arithmetic at `x = 1/2`. -/
theorem toCol_quantises_witness :
    (0 ≤ toCol ieee (1 / 2) ∧ toCol ieee (1 / 2) ≤ 255) ∧
      toCol ieee (1 / 2) =
        Int.floor (ieee.f64 (ieee.f32 (clamp (1 / 2 : ℚ) * 255) + 1 / 2)) ∧
      ((1 / 2 : ℚ) ≤ 0 → toCol ieee (1 / 2) = 0) ∧
      ((1 : ℚ) ≤ 1 / 2 → toCol ieee (1 / 2) = 255) ∧
      ∀ y : ℚ, 1 / 2 ≤ y → toCol ieee (1 / 2) ≤ toCol ieee y :=
  toCol_quantises ieee ieee_sound (by decide!) (by decide!) (by decide!) (1 / 2)

/-- C15 fails as stated, in IEEE arithmetic: at the `float`
`x = 8454401/2^24` the exact product `clamp(x)*255` is `128.49999994`, so
`floor(clamp(x)*255 + 1/2)` is `128`; the `float` product is `128.5` and
`toCol(x)` is `129`. -/
theorem toCol_counterexample :
    ieee.f32 (8454401 / 16777216) = 8454401 / 16777216 ∧
      toCol ieee (8454401 / 16777216) = 129 ∧
      Int.floor (clamp (8454401 / 16777216 : ℚ) * 255 + 1 / 2) = 128 ∧
      ieee.f32 (clamp (8454401 / 16777216 : ℚ) * 255) = 257 / 2 := by
  decide!

end Quantise

section SRGB

variable {F : Type} [LinearOrderedField F]

/-- The exponent `1/2.4` is `5/12`. -/
theorem PowSpec.root {M : Libm F} (hP : PowSpec M) {x : F} (hx : 0 ≤ x) :
    M.pow x (1 / (24 / 10)) ^ 12 = x ^ 5 := by
  have h := hP.rat x 5 12 hx (by norm_num)
  have he : ((5 : Nat) : F) / ((12 : Nat) : F) = 1 / (24 / 10) := by norm_num
  rwa [he] at h

/-- The exponent `2.4` is `12/5`. -/
theorem PowSpec.unroot {M : Libm F} (hP : PowSpec M) {t : F} (ht : 0 ≤ t) :
    M.pow t (24 / 10) ^ 5 = t ^ 12 := by
  have h := hP.rat t 12 5 ht (by norm_num)
  have he : ((12 : Nat) : F) / ((5 : Nat) : F) = 24 / 10 := by norm_num
  rwa [he] at h

end SRGB

section SRGBMachine

variable {F : Type} [LinearOrderedField F]

/-- In exact arithmetic the machine encoding is the encoding of the
specification. -/
theorem Fpu.srgbEncode_exact (sqrt : F → F) (M : Libm F) (x : F) :
    (Fpu.exact sqrt).srgbEncode M x = Tracer.srgbEncode M x := rfl

theorem Fpu.srgbDecode_exact (sqrt : F → F) (M : Libm F) (y : F) :
    (Fpu.exact sqrt).srgbDecode M y = Tracer.srgbDecode M y := rfl

end SRGBMachine

/-! The integrator on the fixed scene -/

section FixedScene

variable {F : Type} [LinearOrderedField F]

theorem vec3.add_mul_zero (a b : vec3 F) : a + b * (⟨0, 0, 0⟩ : vec3 F) = a := by
  simp [vec3.add_def, vec3.mul_def]

theorem vec3.zero_mul (a : vec3 F) : (⟨0, 0, 0⟩ : vec3 F) * a = ⟨0, 0, 0⟩ := by
  simp [vec3.mul_def]

theorem vec3.mul_zero (a : vec3 F) : a * (⟨0, 0, 0⟩ : vec3 F) = ⟨0, 0, 0⟩ := by
  simp [vec3.mul_def]

/-- The recorded distance is at most the distance of every candidate. -/
theorem findClosest_le (M : Libm F) (O D : vec3 F) (ss : List (Sphere F)) :
    ∀ p ∈ ss, qualifies M O D p →
      (findClosest M O D ss).closestHit ≤ hitDist M O D p := by
  intro p hp hq
  rcases findClosest_spec M O D ss with ⟨hnone, _⟩ | ⟨pre, s, post, hl, _, heq, hpre, hpost⟩
  · exact absurd hq (hnone p hp)
  · rw [heq]
    rw [hl] at hp
    rcases List.mem_append.mp hp with h | h
    · exact (hpre p h hq).le
    · rcases List.mem_cons.mp h with h | h
      · rw [h]
      · exact hpost p h hq

/-- When the loop found something, it is a candidate of the list, recorded
with its distance. -/
theorem findClosest_sel (M : Libm F) (O D : vec3 F) (ss : List (Sphere F))
    (h : (findClosest M O D ss).closestHit ≠ MAX_RAY_DIST) :
    ∃ s ∈ ss, qualifies M O D s ∧
      findClosest M O D ss = ⟨hitDist M O D s, sphereIntersect M O D s⟩ := by
  rcases findClosest_spec M O D ss with ⟨_, heq⟩ | ⟨pre, s, post, hl, hq, heq, _, _⟩
  · rw [heq] at h
    exact absurd rfl h
  · refine ⟨s, ?_, hq, heq⟩
    rw [hl]
    exact List.mem_append_right _ (List.mem_cons_self _ _)

/-- A pass that goes on hands the remaining passes to the new state. -/
theorem traceLoop_next (M : Libm F) (rr : Bool) (ss : List (Sphere F)) (sky : vec3 F)
    {st st1 : PathState F} (h : bounce M rr ss sky st = Bounce.next st1) (n : Nat) :
    traceLoop M rr ss sky (n + 1) st = traceLoop M rr ss sky n st1 := by
  simp only [traceLoop, h]

/-- A pass that returns ends the loop. -/
theorem traceLoop_returned (M : Libm F) (rr : Bool) (ss : List (Sphere F)) (sky : vec3 F)
    {st : PathState F} {col : vec3 F} {g : Rng}
    (h : bounce M rr ss sky st = Bounce.returned col g) (n : Nat) :
    traceLoop M rr ss sky (n + 1) st = (col, g) := by
  simp only [traceLoop, h]

/-- Once the throughput is zero the accumulated colour no longer changes. -/
theorem traceLoop_zero_throughput (M : Libm F) (ss : List (Sphere F)) (sky : vec3 F) :
    ∀ (n : Nat) (st : PathState F), st.throughput = ⟨0, 0, 0⟩ →
      (traceLoop M false ss sky n st).1 = st.col := by
  intro n
  induction n with
  | zero =>
    intro st _
    rfl
  | succ n ih =>
    intro st h
    simp only [traceLoop]
    by_cases hmax : (findClosest M st.rayOrigin st.rayDir ss).closestHit = MAX_RAY_DIST
    · rw [bounce_miss M false ss sky st hmax, h]
      exact vec3.add_mul_zero _ _
    · obtain ⟨st1, h1, _, hthr, _⟩ := bounce_hit_false M ss sky st hmax
      have hcol := (bounce_hit_col M false ss sky st hmax).2 st1 h1
      rw [h, vec3.add_mul_zero] at hcol
      rw [h, vec3.zero_mul, vec3.zero_mul, or_self] at hthr
      rw [h1]
      simp only
      rw [ih st1 hthr, hcol]

theorem lightSource_emissive : (lightSource : MaterialInfo F).emissive = ⟨1, 9 / 10, 7 / 10⟩ := by
  simp [lightSource, vec3.scale_def]

/-- The first pass of a primary ray whose closest hit is a light source: the
emitted radiance is added with throughput `(1,1,1)`, then the throughput is
multiplied by the light's zero albedo. -/
theorem light_first_pass (M : Libm F) (O D : vec3 F) (g : Rng)
    (hne : (findClosest M O D spheres).closestHit ≠ MAX_RAY_DIST)
    (hmat : (findClosest M O D spheres).hitInfo.mat = lightSource) :
    ∃ st1, bounce M false spheres skyboxColor (initState O D g) = Bounce.next st1 ∧
      st1.col = ⟨1, 9 / 10, 7 / 10⟩ ∧ st1.throughput = ⟨0, 0, 0⟩ := by
  obtain ⟨st1, h1, _, hthr, _⟩ := bounce_hit_false M spheres skyboxColor (initState O D g) hne
  have hcol := (bounce_hit_col M false spheres skyboxColor (initState O D g) hne).2 st1 h1
  have hm : (findClosest M (initState O D g).rayOrigin (initState O D g).rayDir
      spheres).hitInfo.mat = lightSource := hmat
  rw [hm] at hcol hthr
  refine ⟨st1, h1, ?_, ?_⟩
  · rw [hcol, lightSource_emissive]
    simp [initState, vec3.splat, vec3.add_def, vec3.mul_def]
  · rcases hthr with h | h <;> rw [h] <;> exact vec3.mul_zero _

/-- A primary ray whose closest hit is a light source returns the emitted
radiance. -/
theorem scene_of_light (M : Libm F) (O D : vec3 F) (g : Rng)
    (hne : (findClosest M O D spheres).closestHit ≠ MAX_RAY_DIST)
    (hmat : (findClosest M O D spheres).hitInfo.mat = lightSource) :
    (scene M O D g).1 = ⟨1, 9 / 10, 7 / 10⟩ := by
  obtain ⟨st1, h1, hcol1, hthr0⟩ := light_first_pass M O D g hne hmat
  show (traceLoop M false spheres skyboxColor (8 + 1) (initState O D g)).1 = _
  rw [traceLoop_next M false spheres skyboxColor h1 8,
    traceLoop_zero_throughput M spheres skyboxColor 8 st1 hthr0, hcol1]

theorem SqrtSpec.sqrt_lt {M : Libm F} (hM : SqrtSpec M) {x b : F} (hx : 0 ≤ x) (hb : 0 ≤ b)
    (h : x < b * b) : M.sqrt x < b := by
  by_contra hle
  have h1 := mul_self_le_mul_self hb (not_lt.mp hle)
  rw [hM.sq x hx] at h1
  exact absurd h (not_lt.mpr h1)

/-- With a unit direction the measured distance of a reported hit is the root
that `sphereIntersect` used, which is at least the smaller root. -/
theorem hitDist_of_hit {M : Libm F} (hM : SqrtSpec M) {O D : vec3 F} {s : Sphere F}
    (ha : dot D D = 1) (hhit : (sphereIntersect M O D s).didHit = true) :
    (inRange (nearRoot M O D s) → hitDist M O D s = nearRoot M O D s) ∧
      (¬ inRange (nearRoot M O D s) → hitDist M O D s = farRoot M O D s) ∧
      nearRoot M O D s ≤ hitDist M O D s := by
  obtain ⟨hd, _⟩ := (didHit_iff M O D s).mp hhit
  obtain ⟨t, hp, hn, hf, hin, _, _⟩ := hit_root hM hhit
  have hdist : hitDist M O D s = t := by
    unfold hitDist
    rw [hp, ray_dist_unit hM O ha (inRange_nonneg hin)]
  have hle := nearRoot_le_farRoot hM (by rw [ha]; exact one_pos) hd.le
  refine ⟨fun h => by rw [hdist, hn h], fun h => by rw [hdist, hf h], ?_⟩
  rw [hdist]
  by_cases h : inRange (nearRoot M O D s)
  · rw [hn h]
  · rw [hf h]
    exact hle

theorem up_dir : dot (⟨0, 1, 0⟩ : vec3 F) ⟨0, 1, 0⟩ = 1 := by
  norm_num [dot]

/-- The light `spheres[1]` is measured at distance `8` along the ray straight
up. -/
theorem up_ray_hitDist {M : Libm F} (hM : SqrtSpec M) :
    hitDist M (⟨0, 0, 0⟩ : vec3 F) ⟨0, 1, 0⟩ ⟨⟨0, 16, 6⟩, 10, lightSource⟩ = 8 := by
  have hd : discr (⟨0, 0, 0⟩ : vec3 F) ⟨0, 1, 0⟩ ⟨⟨0, 16, 6⟩, 10, lightSource⟩ = 8 * 8 := by
    norm_num [discr, halfB, dot, vec3.sub_def]
  have hb : halfB (⟨0, 0, 0⟩ : vec3 F) ⟨0, 1, 0⟩ ⟨⟨0, 16, 6⟩, 10, lightSource⟩ = -16 := by
    norm_num [halfB, dot, vec3.sub_def]
  have hn : nearRoot M (⟨0, 0, 0⟩ : vec3 F) ⟨0, 1, 0⟩ ⟨⟨0, 16, 6⟩, 10, lightSource⟩ = 8 := by
    unfold nearRoot
    rw [hd, hb, up_dir, hM.sqrt_mul_self (by norm_num)]
    norm_num
  have hin : inRange (nearRoot M (⟨0, 0, 0⟩ : vec3 F) ⟨0, 1, 0⟩
      ⟨⟨0, 16, 6⟩, 10, lightSource⟩) := by
    rw [hn]
    exact inRange_num (by norm_num) (by norm_num)
  rw [(hitDist_of_hit hM up_dir (up_ray_qualifies hM).1).1 hin, hn]

/-- Along the ray straight up the only candidates are the two lights
`spheres[1]` and `spheres[6]`, and the second is farther than `8`. -/
theorem up_ray_candidates {M : Libm F} (hM : SqrtSpec M) :
    ∀ s ∈ (spheres : List (Sphere F)), qualifies M (⟨0, 0, 0⟩ : vec3 F) ⟨0, 1, 0⟩ s →
      s = ⟨⟨0, 16, 6⟩, 10, lightSource⟩ ∨
        8 < hitDist M (⟨0, 0, 0⟩ : vec3 F) ⟨0, 1, 0⟩ s := by
  intro s hs hq
  simp only [spheres, List.mem_cons, List.mem_singleton, List.not_mem_nil, or_false] at hs
  rcases hs with rfl | rfl | rfl | rfl | rfl | rfl | rfl | rfl | rfl | rfl
  · exact absurd hq (not_qualifies_of_discr (by norm_num [discr, halfB, dot, vec3.sub_def]))
  · exact Or.inl rfl
  · exact absurd hq (not_qualifies_of_discr (by norm_num [discr, halfB, dot, vec3.sub_def]))
  · exact absurd hq (not_qualifies_of_discr (by norm_num [discr, halfB, dot, vec3.sub_def]))
  · exact absurd hq (not_qualifies_of_discr (by norm_num [discr, halfB, dot, vec3.sub_def]))
  · exfalso
    have hd : discr (⟨0, 0, 0⟩ : vec3 F) ⟨0, 1, 0⟩ ⟨⟨0, -103, 30⟩, 100, matteWhite⟩
        = 9100 := by norm_num [discr, halfB, dot, vec3.sub_def]
    have hb : halfB (⟨0, 0, 0⟩ : vec3 F) ⟨0, 1, 0⟩ ⟨⟨0, -103, 30⟩, 100, matteWhite⟩
        = 103 := by norm_num [halfB, dot, vec3.sub_def]
    have hs0 := hM.nonneg (9100 : F) (by norm_num)
    have hs1 := hM.sqrt_lt (by norm_num : (0 : F) ≤ 9100) (by norm_num : (0 : F) ≤ 103)
      (by norm_num)
    refine not_qualifies_of_roots ?_ ?_ hq
    · unfold nearRoot
      rw [hd, hb, up_dir, div_one]
      exact not_inRange_of_lt (by linarith)
    · unfold farRoot
      rw [hd, hb, up_dir, div_one]
      exact not_inRange_of_lt (by linarith)
  · right
    have hd : discr (⟨0, 0, 0⟩ : vec3 F) ⟨0, 1, 0⟩ ⟨⟨0, 125, 30⟩, 100, lightSource⟩
        = 9100 := by norm_num [discr, halfB, dot, vec3.sub_def]
    have hb : halfB (⟨0, 0, 0⟩ : vec3 F) ⟨0, 1, 0⟩ ⟨⟨0, 125, 30⟩, 100, lightSource⟩
        = -125 := by norm_num [halfB, dot, vec3.sub_def]
    have hs1 := hM.sqrt_lt (by norm_num : (0 : F) ≤ 9100) (by norm_num : (0 : F) ≤ 117)
      (by norm_num)
    have hn : 8 < nearRoot M (⟨0, 0, 0⟩ : vec3 F) ⟨0, 1, 0⟩
        ⟨⟨0, 125, 30⟩, 100, lightSource⟩ := by
      unfold nearRoot
      rw [hd, hb, up_dir, div_one]
      linarith
    exact hn.trans_le (hitDist_of_hit hM up_dir hq.1).2.2
  · exact absurd hq (not_qualifies_of_discr (by norm_num [discr, halfB, dot, vec3.sub_def]))
  · exact absurd hq (not_qualifies_of_discr (by norm_num [discr, halfB, dot, vec3.sub_def]))
  · exact absurd hq (not_qualifies_of_discr (by norm_num [discr, halfB, dot, vec3.sub_def]))

/-- The inner loop on the ray straight up: `spheres[1]` at distance `8`. -/
theorem up_ray_findClosest {M : Libm F} (hM : SqrtSpec M) :
    findClosest M (⟨0, 0, 0⟩ : vec3 F) ⟨0, 1, 0⟩ spheres =
      ⟨8, sphereIntersect M (⟨0, 0, 0⟩ : vec3 F) ⟨0, 1, 0⟩ ⟨⟨0, 16, 6⟩, 10, lightSource⟩⟩ := by
  have hmem : (⟨⟨0, 16, 6⟩, 10, lightSource⟩ : Sphere F) ∈ (spheres : List (Sphere F)) := by
    simp [spheres]
  have hne : (findClosest M (⟨0, 0, 0⟩ : vec3 F) ⟨0, 1, 0⟩ spheres).closestHit
      ≠ MAX_RAY_DIST :=
    fun h => (closestHit_eq_max_iff M _ _ _).mp h _ hmem (up_ray_qualifies hM)
  obtain ⟨s, hs, hq, heq⟩ := findClosest_sel M _ _ _ hne
  have hle := findClosest_le M _ _ _ _ hmem (up_ray_qualifies hM)
  rw [heq, up_ray_hitDist hM] at hle
  rcases up_ray_candidates hM s hs hq with h | h
  · rw [heq, h, up_ray_hitDist hM]
  · exact absurd hle (not_le.mpr h)

/-- C16: emission is added before the throughput is updated.  For the fixed
scene, a primary ray whose closest hit is a light source ends its first pass
with `col = emissive * (1,1,1) = (1.0, 0.9, 0.7)` and throughput `(0,0,0)`, and
`scene` returns exactly `(1.0, 0.9, 0.7)` for every random stream; the ray from
`(0,0,0)` towards `(0,1,0)` is such a ray, its closest hit being `spheres[1]`
at distance `8`. -/
theorem scene_emission_before_throughput (M : Libm F) (hM : SqrtSpec M) :
    (∀ (O D : vec3 F) (g : Rng),
        (findClosest M O D spheres).closestHit ≠ MAX_RAY_DIST →
        (findClosest M O D spheres).hitInfo.mat = lightSource →
        (∃ st1, bounce M false spheres skyboxColor (initState O D g) = Bounce.next st1 ∧
          st1.col = ⟨1, 9 / 10, 7 / 10⟩ ∧ st1.throughput = ⟨0, 0, 0⟩) ∧
        (scene M O D g).1 = ⟨1, 9 / 10, 7 / 10⟩) ∧
      findClosest M (⟨0, 0, 0⟩ : vec3 F) ⟨0, 1, 0⟩ spheres =
        ⟨8, sphereIntersect M (⟨0, 0, 0⟩ : vec3 F) ⟨0, 1, 0⟩
          ⟨⟨0, 16, 6⟩, 10, lightSource⟩⟩ ∧
      ∀ g : Rng, (scene M (⟨0, 0, 0⟩ : vec3 F) ⟨0, 1, 0⟩ g).1 = ⟨1, 9 / 10, 7 / 10⟩ := by
  refine ⟨fun O D g hne hmat =>
    ⟨light_first_pass M O D g hne hmat, scene_of_light M O D g hne hmat⟩,
    up_ray_findClosest hM, fun g => ?_⟩
  apply scene_of_light
  · rw [up_ray_findClosest hM]
    norm_num [MAX_RAY_DIST]
  · rw [up_ray_findClosest hM]
    rfl

/-- C16 over the reals for the ray from `(0,0,0)` towards `(0,1,0)` and the
stream `rand() = 0, 1, 2, …` with `RAND_MAX = 32767`. -/
theorem scene_emission_before_throughput_witness :
    (scene (Libm.mk Real.sqrt Real.cos Real.sin Real.rpow) (⟨0, 0, 0⟩ : vec3 ℝ) ⟨0, 1, 0⟩
        ⟨32767, fun k => k, 0⟩).1 = ⟨1, 9 / 10, 7 / 10⟩ :=
  (scene_emission_before_throughput _ real_sqrtSpec).2.2 ⟨32767, fun k => k, 0⟩

/-- A product of a vector in the unit box with a bound stays under the bound. -/
theorem inRadianceBox_mul {e t : vec3 F} (he : inRadianceBox e) (ht : inUnitBox t) :
    inRadianceBox (e * t) := by
  obtain ⟨⟨e1, e2⟩, ⟨e3, e4⟩, e5, e6⟩ := he
  obtain ⟨⟨t1, t2⟩, ⟨t3, t4⟩, t5, t6⟩ := ht
  rw [vec3.mul_def]
  refine ⟨⟨mul_nonneg e1 t1, ?_⟩, ⟨mul_nonneg e3 t3, ?_⟩, mul_nonneg e5 t5, ?_⟩
  · simpa using mul_le_mul e2 t2 t1 zero_le_one
  · simpa using mul_le_mul e4 t4 t3 (by norm_num : (0 : F) ≤ 9 / 10)
  · simpa using mul_le_mul e6 t6 t5 (by norm_num : (0 : F) ≤ 9 / 10)

theorem inRadianceBox_zero : inRadianceBox (⟨0, 0, 0⟩ : vec3 F) := by
  norm_num [inRadianceBox]

theorem vec3.zero_add (a : vec3 F) : (⟨0, 0, 0⟩ : vec3 F) + a = a := by
  simp [vec3.add_def]

/-- Every sphere of the fixed scene either emits nothing or is a light with
zero albedo. -/
theorem spheres_emissive :
    ∀ s ∈ (spheres : List (Sphere F)),
      s.mat.emissive = ⟨0, 0, 0⟩ ∨
        (inRadianceBox s.mat.emissive ∧ s.mat.diffuse = ⟨0, 0, 0⟩ ∧
          s.mat.specular = ⟨0, 0, 0⟩) := by
  intro s hs
  simp only [spheres, List.mem_cons, List.mem_singleton, List.not_mem_nil, or_false] at hs
  rcases hs with rfl | rfl | rfl | rfl | rfl | rfl | rfl | rfl | rfl | rfl <;>
    norm_num [inRadianceBox, lightSource, matteRed, matteGreen, matteWhite, metalCyan,
      metalMagenta, metalYellow, vec3.splat, vec3.scale_def]

theorem skyboxColor_box : inRadianceBox (skyboxColor : vec3 F) := by
  norm_num [inRadianceBox, skyboxColor]

/-- The invariant of the bounce loop on the fixed scene behind the bound on
the returned radiance: the throughput is in the unit box, and either nothing
has been accumulated yet or the throughput is zero and the colour is bounded. -/
theorem traceLoop_radiance (M : Libm F) :
    ∀ (n : Nat) (st : PathState F), inUnitBox st.throughput →
      (st.col = ⟨0, 0, 0⟩ ∨ (st.throughput = ⟨0, 0, 0⟩ ∧ inRadianceBox st.col)) →
      inRadianceBox (traceLoop M false spheres skyboxColor n st).1 := by
  intro n
  induction n with
  | zero =>
    intro st _ hJ
    show inRadianceBox st.col
    rcases hJ with h | h
    · rw [h]; exact inRadianceBox_zero
    · exact h.2
  | succ n ih =>
    intro st hbox hJ
    by_cases hmax : (findClosest M st.rayOrigin st.rayDir spheres).closestHit = MAX_RAY_DIST
    · rw [traceLoop_returned M false spheres skyboxColor
        (bounce_miss M false spheres skyboxColor st hmax) n]
      show inRadianceBox (st.col + skyboxColor * st.throughput)
      rcases hJ with h | h
      · rw [h, vec3.zero_add]
        exact inRadianceBox_mul skyboxColor_box hbox
      · rw [h.1, vec3.add_mul_zero]
        exact h.2
    · obtain ⟨st1, h1, _, hthr, _⟩ := bounce_hit_false M spheres skyboxColor st hmax
      have hcol := (bounce_hit_col M false spheres skyboxColor st hmax).2 st1 h1
      obtain ⟨s, hs, hinfo⟩ := findClosest_hit_mem M _ _ spheres hmax
      have hmat : (findClosest M st.rayOrigin st.rayDir spheres).hitInfo.mat = s.mat := by
        rw [hinfo]; rfl
      rw [hmat] at hcol hthr
      have hal := spheres_albedo s hs
      have hbox1 : inUnitBox st1.throughput := by
        rcases hthr with h | h
        · rw [h]; exact inUnitBox_mul hbox hal.2
        · rw [h]; exact inUnitBox_mul hbox hal.1
      rw [traceLoop_next M false spheres skyboxColor h1 n]
      apply ih st1 hbox1
      rcases hJ with h | h
      · rcases spheres_emissive s hs with he | ⟨he, hd, hsp⟩
        · left
          rw [hcol, h, he, vec3.zero_mul, vec3.zero_add]
        · right
          constructor
          · rcases hthr with h2 | h2
            · rw [h2, hsp, vec3.mul_zero]
            · rw [h2, hd, vec3.mul_zero]
          · rw [hcol, h, vec3.zero_add]
            exact inRadianceBox_mul he hbox
      · right
        constructor
        · rcases hthr with h2 | h2 <;> rw [h2, h.1, vec3.zero_mul]
        · rw [hcol, h.1, vec3.add_mul_zero]
          exact h.2

/-- C20: with Russian roulette disabled, for the fixed 10-sphere scene, every
ray and every random stream, the radiance returned by `scene` is component-wise
between `0` and `(1.0, 0.9, 0.9)`, hence in `[0,1]`. -/
theorem scene_radiance_bounded (M : Libm F) (O D : vec3 F) (g : Rng) :
    inRadianceBox (scene M O D g).1 ∧ inUnitBox (scene M O D g).1 := by
  have h : inRadianceBox (scene M O D g).1 :=
    traceLoop_radiance M (N_BOUNCES + 1) (initState O D g) (initState_box O D g) (Or.inl rfl)
  refine ⟨h, ?_⟩
  obtain ⟨⟨h1, h2⟩, ⟨h3, h4⟩, h5, h6⟩ := h
  exact ⟨⟨h1, h2⟩, ⟨h3, h4.trans (by norm_num)⟩, h5, h6.trans (by norm_num)⟩

end FixedScene

section Nearest

variable {F : Type} [LinearOrderedField F]

end Nearest

end Tracer
